import Mathlib

/-!
# Verification of the stellar-quorum-analyzer core

Shallow embedding of the quorum-set graph builder (`src/fbas.rs`) and the
CNF encoder / SAT driver (`src/fbas_analyze.rs`), with theorems settling the
frozen claims about the natural-language specification.

Modelling conventions:
* `petgraph::DiGraph` is modelled as an arena of vertices (`nodes`) plus an
  adjacency list (`succs`); `add_node` appends, node indices are positions.
* `BTreeMap` / `BTreeSet` are modelled as sorted association lists / sorted
  duplicate-free lists, with insert functions mirroring their semantics.
  A `QuorumSetMap` value is therefore a key-sorted association list; the
  theorems carry this as an explicit hypothesis (`QsmWF`).
* `itertools`' `combinations(k)` is modelled as `List.sublistsLen k`, the
  list of all length-`k` subsequences (enumeration order differs from
  itertools, which no claim depends on).
* the batsat solver is external: `solve` is parameterised by the solver's
  outcome, and the solver contract (a SAT model satisfies every clause that
  was added) appears as a hypothesis of the theorems that need it.
* `unwrap()` on options that the code guarantees to be populated is modelled
  as returning an `InternalError` (for `Result` contexts) or a default value
  (for infallible accessors on valid indices).
-/

namespace SQA

/-- `InternalScpQuorumSet` from `src/fbas.rs`: threshold, validator names,
and nested inner quorum sets. -/
inductive InternalScpQuorumSet : Type where
  | mk (threshold : Nat) (validators : List String)
       (inner_sets : List InternalScpQuorumSet)

mutual

/-- Decidable structural equality for `InternalScpQuorumSet` (the derive
handler does not support nested inductives). -/
def isqDecEq : (a b : InternalScpQuorumSet) → Decidable (a = b)
  | .mk t1 v1 i1, .mk t2 v2 i2 =>
    if ht : t1 = t2 then
      if hv : v1 = v2 then
        match isqDecEqList i1 i2 with
        | isTrue hi => isTrue (by rw [ht, hv, hi])
        | isFalse hi => isFalse (by intro h; injection h; contradiction)
      else isFalse (by intro h; injection h; contradiction)
    else isFalse (by intro h; injection h; contradiction)

/-- Decidable structural equality for lists of `InternalScpQuorumSet`. -/
def isqDecEqList : (a b : List InternalScpQuorumSet) → Decidable (a = b)
  | [], [] => isTrue rfl
  | [], _ :: _ => isFalse (by intro h; injection h)
  | _ :: _, [] => isFalse (by intro h; injection h)
  | a :: as, b :: bs =>
    match isqDecEq a b, isqDecEqList as bs with
    | isTrue h1, isTrue h2 => isTrue (by rw [h1, h2])
    | isFalse h1, _ => isFalse (by intro h; injection h; contradiction)
    | _, isFalse h2 => isFalse (by intro h; injection h; contradiction)

end

instance : DecidableEq InternalScpQuorumSet := isqDecEq

/-- `threshold` field accessor. -/
def InternalScpQuorumSet.threshold : InternalScpQuorumSet → Nat
  | .mk t _ _ => t

/-- `validators` field accessor. -/
def InternalScpQuorumSet.validators : InternalScpQuorumSet → List String
  | .mk _ vs _ => vs

/-- `inner_sets` field accessor. -/
def InternalScpQuorumSet.inner_sets :
    InternalScpQuorumSet → List InternalScpQuorumSet
  | .mk _ _ inn => inn

/-- `QUORUM_SET_MAX_DEPTH` from `src/fbas.rs`. -/
def QUORUM_SET_MAX_DEPTH : Nat := 4

mutual

/-- Modelled from the spec: the nesting depth of a quorum set (a leaf quorum
set has depth 1, each level of `inner_sets` adds one).  The source has no
such function; the spec speaks of "nesting depth exceeding 4 levels". -/
def qsetDepth : InternalScpQuorumSet → Nat
  | .mk _ _ inner => 1 + qsetDepthList inner

/-- Maximum nesting depth of a list of quorum sets (0 for the empty list). -/
def qsetDepthList : List InternalScpQuorumSet → Nat
  | [] => 0
  | q :: rest => max (qsetDepth q) (qsetDepthList rest)

end

/-- `Qset` from `src/fbas.rs`: interning key of a quorum-set vertex.  The
`BTreeSet<NodeIndex>` fields are modelled as sorted duplicate-free lists of
node indices, so structural equality of this type coincides with equality of
the Rust `Qset` values used as `BTreeMap` keys. -/
structure Qset where
  threshold : Nat
  validators : List Nat
  inner_qsets : List Nat
deriving DecidableEq, Repr

/-- `Vertex` from `src/fbas.rs`. -/
inductive Vertex : Type where
  | Validator (name : String)
  | QSet (q : Qset)
deriving DecidableEq, Repr

/-- `Vertex::get_threshold`. -/
def Vertex.get_threshold : Vertex → Nat
  | .Validator _ => 1
  | .QSet q => q.threshold

/-- The error cases that can actually arise in the modelled builder code:
the depth check in `process_scp_quorum_set` (the Rust code returns the boxed
string "qset exceeds max depth"), and an `InternalError` standing for an
`unwrap()` on a lookup the code relies on to succeed. -/
inductive FbasError : Type where
  | QuorumSetTooDeep
  | InternalError
deriving DecidableEq, Repr

/-- `Fbas` from `src/fbas.rs`: `graph: DiGraph<Vertex, ()>` is modelled as
the vertex arena `nodes` plus the adjacency list `succs` (same length);
`validators` lists the node indices of validator vertices in registration
order. -/
structure Fbas where
  nodes : List Vertex
  succs : List (List Nat)
  validators : List Nat
deriving DecidableEq, Repr

/-- `Fbas::default()`. -/
def emptyFbas : Fbas := { nodes := [], succs := [], validators := [] }

/-- `Fbas::add_validator`: `graph.add_node` followed by `validators.push`. -/
def addValidator (f : Fbas) (v : String) : Fbas :=
  { nodes := f.nodes ++ [Vertex.Validator v]
    succs := f.succs ++ [[]]
    validators := f.validators ++ [f.nodes.length] }

/-- `graph.add_node(Vertex::QSet(q))`. -/
def addQsetNode (f : Fbas) (q : Qset) : Fbas :=
  { f with nodes := f.nodes ++ [Vertex.QSet q], succs := f.succs ++ [[]] }

/-- `graph.update_edge(src, tgt, ())`: add the edge only when absent. -/
def updateEdge (f : Fbas) (src tgt : Nat) : Fbas :=
  let cur := f.succs.getD src []
  if tgt ∈ cur then f
  else { f with succs := f.succs.set src (cur ++ [tgt]) }

/-- `graph.add_edge(src, tgt, ())`: unconditional edge insertion. -/
def addEdge (f : Fbas) (src tgt : Nat) : Fbas :=
  { f with succs := f.succs.set src ((f.succs.getD src []) ++ [tgt]) }

/-- `known_validators.get(s)`: lookup in the association list built by the
first pass (which models the `BTreeMap<&String, NodeIndex>`). -/
def lookupValidator (kv : List (String × Nat)) (s : String) : Option Nat :=
  match kv with
  | [] => none
  | (k, v) :: rest => if k = s then some v else lookupValidator rest s

/-- `known_qsets.get(&q)`: lookup in the interning table. -/
def lookupQset (kq : List (Qset × Nat)) (q : Qset) : Option Nat :=
  match kq with
  | [] => none
  | (k, v) :: rest => if k = q then some v else lookupQset rest q

/-- `BTreeSet::insert` on a sorted duplicate-free list of `Nat`. -/
def btreeSetInsert (x : Nat) : List Nat → List Nat
  | [] => [x]
  | y :: rest =>
    if x < y then x :: y :: rest
    else if x = y then y :: rest
    else y :: btreeSetInsert x rest

/-- Builder state threaded through the second pass: the graph under
construction and the interning table `known_qsets`. -/
structure BuildSt where
  fbas : Fbas
  known_qsets : List (Qset × Nat)
deriving DecidableEq, Repr

/-- The edge-insertion block at the end of `process_scp_quorum_set`:
`update_edge(idx, vi)` for every member of the qset, validators first. -/
def addQsetEdges (st : BuildSt) (idx : Nat) (q : Qset) : BuildSt :=
  { st with
    fbas := q.inner_qsets.foldl (fun f qi => updateEdge f idx qi)
      (q.validators.foldl (fun f vi => updateEdge f idx vi) st.fbas) }

/-- The `for validator in &qset.validators` loop of
`process_scp_quorum_set`: insert the index of every known validator into
the working `BTreeSet`, silently dropping unknown ones (the `eprintln!`
warning is a pure effect and is dropped). -/
def mkQsetValidators (kv : List (String × Nat)) (vs : List String) : List Nat :=
  vs.foldl (fun acc s =>
    match lookupValidator kv s with
    | some i => btreeSetInsert i acc
    | none => acc) []

/-- Folding the processed inner-qset indices into the working `BTreeSet`
(`new_qset.inner_qsets.insert(qidx)` inside the inner loop). -/
def mkQsetInner (innerIdxs : List Nat) : List Nat :=
  innerIdxs.foldl (fun acc i => btreeSetInsert i acc) []

/-- The tail of `process_scp_quorum_set`: look the working qset up in the
interning table, reusing the stored vertex or allocating a new one, then
run the `update_edge` block over the qset's members. -/
def internQset (st1 : BuildSt) (new_qset : Qset) : Nat × BuildSt :=
  match lookupQset st1.known_qsets new_qset with
  | some idx => (idx, addQsetEdges st1 idx new_qset)
  | none =>
    let idx := st1.fbas.nodes.length
    let st2 : BuildSt :=
      { fbas := addQsetNode st1.fbas new_qset
        known_qsets := st1.known_qsets ++ [(new_qset, idx)] }
    (idx, addQsetEdges st2 idx new_qset)

mutual

/-- `Fbas::process_scp_quorum_set` from `src/fbas.rs`: depth check, then
build the working `Qset` from the known declared validators and the
recursively processed inner sets, then intern it and add its edges. -/
def processScpQuorumSet (kv : List (String × Nat))
    (qset : InternalScpQuorumSet) (curr_depth : Nat) (st : BuildSt) :
    Except FbasError (Nat × BuildSt) :=
  if curr_depth = QUORUM_SET_MAX_DEPTH then .error .QuorumSetTooDeep
  else
    match qset with
    | .mk t vs inner =>
      match processInnerSets kv inner (curr_depth + 1) st with
      | .error e => .error e
      | .ok (innerIdxs, st1) =>
        .ok (internQset st1
          { threshold := t
            validators := mkQsetValidators kv vs
            inner_qsets := mkQsetInner innerIdxs })

/-- The `for inner_qset in &qset.inner_sets` loop: process the inner quorum
sets left to right, threading the builder state, collecting the returned
node indices (which the caller folds into a `BTreeSet`). -/
def processInnerSets (kv : List (String × Nat))
    (qs : List InternalScpQuorumSet) (curr_depth : Nat) (st : BuildSt) :
    Except FbasError (List Nat × BuildSt) :=
  match qs with
  | [] => .ok ([], st)
  | q :: rest =>
    match processScpQuorumSet kv q curr_depth st with
    | .error e => .error e
    | .ok (i, st1) =>
      match processInnerSets kv rest curr_depth st1 with
      | .error e => .error e
      | .ok (is, st2) => .ok (i :: is, st2)

end

/-- First pass of `Fbas::from_quorum_set_map`: register every top-level
validator in iteration order and record `validator_id -> node_index`. -/
def firstPass : List (String × InternalScpQuorumSet) → Fbas →
    List (String × Nat) → (Fbas × List (String × Nat))
  | [], f, kv => (f, kv)
  | (s, _) :: rest, f, kv =>
    firstPass rest (addValidator f s) (kv ++ [(s, f.nodes.length)])

/-- Second pass of `Fbas::from_quorum_set_map`: for each entry, intern its
quorum set and add the edge from the validator vertex to the qset vertex.
The `known_validators.get(node_str).unwrap()` is modelled as
`InternalError` when the lookup fails (it cannot, for a map input). -/
def secondPass (kv : List (String × Nat)) :
    List (String × InternalScpQuorumSet) → BuildSt → Except FbasError Fbas
  | [], st => .ok st.fbas
  | (s, q) :: rest, st =>
    match lookupValidator kv s with
    | none => .error .InternalError
    | some v_idx =>
      match processScpQuorumSet kv q 0 st with
      | .error e => .error e
      | .ok (q_idx, st1) =>
        secondPass kv rest { st1 with fbas := addEdge st1.fbas v_idx q_idx }

/-- `Fbas::from_quorum_set_map`.  The `QuorumSetMap` (`BTreeMap`) argument
is modelled as its key-sorted entry list; theorems carry the sortedness as
the hypothesis `QsmWF`. -/
def fromQuorumSetMap (qsm : List (String × InternalScpQuorumSet)) :
    Except FbasError Fbas :=
  let fp := firstPass qsm emptyFbas []
  secondPass fp.2 qsm { fbas := fp.1, known_qsets := [] }

/-- Strict lexicographic order on the character lists underlying two
strings: the order by which a Rust `BTreeMap<String, _>` sorts its keys
(UTF-8 byte order and code-point order agree). -/
def keyLt : List Char → List Char → Bool
  | _, [] => false
  | [], _ :: _ => true
  | a :: as, b :: bs =>
    if a < b then true else if b < a then false else keyLt as bs

/-- Adjacent-pairs sortedness of a key list under `keyLt`. -/
def keysSorted : List String → Bool
  | [] => true
  | [_] => true
  | a :: b :: rest => keyLt a.data b.data && keysSorted (b :: rest)

/-- Well-formedness of a modelled `QuorumSetMap` value: the entry list has
duplicate-free keys and is strictly sorted by key, which is exactly what a
`BTreeMap` iterator produces. -/
def QsmWF (qsm : List (String × InternalScpQuorumSet)) : Prop :=
  (qsm.map Prod.fst).Nodup ∧ keysSorted (qsm.map Prod.fst) = true

/-- `BTreeMap::insert` on the key-sorted entry list: insert in order
(`keyLt` is the map's String order), replacing an existing binding of the
same key. -/
def btreeMapInsert (k : String) (v : InternalScpQuorumSet) :
    List (String × InternalScpQuorumSet) → List (String × InternalScpQuorumSet)
  | [] => [(k, v)]
  | (k0, v0) :: rest =>
    if keyLt k.data k0.data then (k, v) :: (k0, v0) :: rest
    else if k = k0 then (k, v) :: rest
    else (k0, v0) :: btreeMapInsert k v rest

/-- The map-building loop of `Fbas::from_quorum_set_map_buf`: each entry is
an already-XDR-decoded node id together with its decoded quorum set, or
`none` for an empty `quorum-set-bytes` buffer (the "unknown validator"
case, which is skipped).  XDR decoding itself is out of scope per the spec;
decoding failures are therefore not modelled. -/
def buildQuorumSetMap (entries : List (String × Option InternalScpQuorumSet)) :
    List (String × InternalScpQuorumSet) :=
  entries.foldl (fun m e =>
    match e.2 with
    | some q => btreeMapInsert e.1 q m
    | none => m) []

/-- `Fbas::from_quorum_set_map_buf` after XDR decoding: build the
`QuorumSetMap` and delegate to `from_quorum_set_map`. -/
def fromQuorumSetMapBuf
    (entries : List (String × Option InternalScpQuorumSet)) :
    Except FbasError Fbas :=
  fromQuorumSetMap (buildQuorumSetMap entries)

/-- `BTreeMap::get` on the key-sorted entry list (first matching key). -/
def mapLookupISQ (m : List (String × InternalScpQuorumSet)) (k : String) :
    Option InternalScpQuorumSet :=
  match m with
  | [] => none
  | (k0, v0) :: rest => if k0 = k then some v0 else mapLookupISQ rest k

/-- Modelled from the spec discussion of duplicate keys: the quorum set of
the last entry for key `k` whose buffer was non-empty (`some`), if any. -/
def lastQsetFor (entries : List (String × Option InternalScpQuorumSet))
    (k : String) : Option InternalScpQuorumSet :=
  entries.foldl (fun acc e =>
    if e.1 = k then match e.2 with | some q => some q | none => acc
    else acc) none

/-! ### CNF encoder (`src/fbas_analyze.rs`) -/

/-- A solver literal: batsat's `Lit::new(var, sign)`, `sign = true` is the
positive literal. -/
structure Lit where
  var : Nat
  sign : Bool
deriving DecidableEq, Repr

/-- Literal negation (`!lit`). -/
def negL (l : Lit) : Lit := { var := l.var, sign := !l.sign }

/-- A clause is a disjunction of literals. -/
abbrev Clause := List Lit

/-- The solver-facing state the encoder mutates: the variable counter
(`num_vars`) and the list of added clauses, in addition order. -/
structure SolverSt where
  numVars : Nat
  clauses : List Clause
deriving DecidableEq, Repr

/-- `solver.add_clause_reuse`. -/
def addClause (s : SolverSt) (c : Clause) : SolverSt :=
  { s with clauses := s.clauses ++ [c] }

/-- `FbasLitsWrapper::in_quorum_a`: positive literal on variable `ni`. -/
def inQuorumA (vertex_count ni : Nat) : Lit := { var := ni, sign := true }

/-- `FbasLitsWrapper::in_quorum_b`: positive literal on variable
`ni + vertex_count`. -/
def inQuorumB (vertex_count ni : Nat) : Lit :=
  { var := ni + vertex_count, sign := true }

/-- `FbasLitsWrapper::new_proposition`: allocate a fresh solver variable and
return its positive literal. -/
def newProposition (s : SolverSt) : Lit × SolverSt :=
  ({ var := s.numVars, sign := true }, { s with numVars := s.numVars + 1 })

/-- `itertools`' `combinations(k)`: all length-`k` subsequences of the list
(`List.sublistsLen`); each combination preserves the element order of the
input, and for a duplicate-free input these are exactly the size-`k`
subsets. -/
def combinations (k : Nat) (l : List Nat) : List (List Nat) :=
  List.sublistsLen k l

/-- `node_weight(ni).unwrap().get_threshold()`; callers only pass valid
indices, so the default is never used there. -/
def vertexThreshold (f : Fbas) (ni : Nat) : Nat :=
  (f.nodes.getD ni (Vertex.Validator "")).get_threshold

/-- `graph.neighbors(ni)`: the outgoing-successor list of vertex `ni`. -/
def neighborsOf (f : Fbas) (ni : Nat) : List Nat := f.succs.getD ni []

/-- One iteration of the `for (_j, q_slice) in qset.enumerate()` loop of
`add_clauses_for_quorum_relations`: allocate the Tseitin proposition
`x_{i,j}`, emit one clause `(¬Q(v) ∨ ¬x ∨ Q(s))` per member while building
`neg_pi_j`, emit `neg_pi_j`, and push `x` onto the running `third_term`. -/
def sliceStep (aq_i : Lit) (inq : Nat → Lit) (acc : SolverSt × List Lit)
    (q_slice : List Nat) : SolverSt × List Lit :=
  let p := newProposition acc.1
  let xi_j := p.1
  let st1 := q_slice.foldl
    (fun s elem => addClause s [negL aq_i, negL xi_j, inq elem]) p.2
  let neg_pi_j := negL aq_i :: xi_j :: q_slice.map (fun e => negL (inq e))
  (addClause st1 neg_pi_j, acc.2 ++ [xi_j])

/-- The body of `add_clauses_for_quorum_relations` for one vertex `ni`:
enumerate the threshold-sized combinations of the successors, run
`sliceStep` for each, and finally emit the `third_term` witness clause. -/
def doSliceVertex (f : Fbas) (inq : Nat → Lit) (st : SolverSt) (ni : Nat) :
    SolverSt :=
  let aq_i := inq ni
  let threshold := vertexThreshold f ni
  let nbrs := neighborsOf f ni
  let qset := combinations threshold nbrs
  let step := qset.foldl (sliceStep aq_i inq) (st, [negL aq_i])
  addClause step.1 step.2

/-- The variable-allocation loop at the top of `construct_formula`: two
fresh solver variables per graph vertex, before any clause is added. -/
def baseVarsSt (f : Fbas) : SolverSt :=
  f.nodes.foldl (fun s _ => { s with numVars := s.numVars + 1 + 1 })
    { numVars := 0, clauses := [] }

/-- Formula 1 of `construct_formula`: the two non-emptiness clauses, one
disjunction of A-literals and one of B-literals over the validators. -/
def afterNotEmpty (f : Fbas) : SolverSt :=
  let n := f.nodes.length
  addClause (addClause (baseVarsSt f) (f.validators.map (inQuorumA n)))
    (f.validators.map (inQuorumB n))

/-- Formula 2 of `construct_formula`: per validator, the disjointness
clause `(not A(v) or not B(v))`. -/
def afterDisjoint (f : Fbas) : SolverSt :=
  let n := f.nodes.length
  f.validators.foldl (fun s ni =>
    addClause s [negL (inQuorumA n ni), negL (inQuorumB n ni)])
    (afterNotEmpty f)

/-- Formula 3, first pass: slice clauses with the A-membership literals,
for every vertex of the graph. -/
def afterSliceA (f : Fbas) : SolverSt :=
  (List.range f.nodes.length).foldl
    (doSliceVertex f (inQuorumA f.nodes.length)) (afterDisjoint f)

/-- `FbasAnalyzer::construct_formula`: base variables, non-emptiness,
disjointness, then the slice clauses for quorum A and for quorum B. -/
def constructFormula (f : Fbas) : SolverSt :=
  (List.range f.nodes.length).foldl
    (doSliceVertex f (inQuorumB f.nodes.length)) (afterSliceA f)

/-! ### Model semantics and the SAT driver -/

/-- An assignment satisfies a literal when it gives the literal's variable
the literal's sign. -/
def satLit (m : Nat → Bool) (l : Lit) : Prop := m l.var = l.sign

instance (m : Nat → Bool) (l : Lit) : Decidable (satLit m l) :=
  inferInstanceAs (Decidable (m l.var = l.sign))

/-- An assignment satisfies a clause when some literal of it is satisfied. -/
def satClause (m : Nat → Bool) (c : Clause) : Prop := ∃ l ∈ c, satLit m l

instance (m : Nat → Bool) (c : Clause) : Decidable (satClause m c) :=
  inferInstanceAs (Decidable (∃ l ∈ c, satLit m l))

/-- An assignment satisfies a clause list when it satisfies every clause. -/
def satFormula (m : Nat → Bool) (cs : List Clause) : Prop :=
  ∀ c ∈ cs, satClause m c

instance (m : Nat → Bool) (cs : List Clause) : Decidable (satFormula m cs) :=
  inferInstanceAs (Decidable (∀ c ∈ cs, satClause m c))

/-- `SolveStatus` from `src/fbas_analyze.rs`. -/
inductive SolveStatus : Type where
  | SAT (quorums : List Nat × List Nat)
  | UNSAT
  | UNKNOWN
deriving DecidableEq, Repr

/-- The outcome of the external batsat call
(`solve_limited_th_full`): on SAT the solver hands back a model.  The
solver contract — the model satisfies every clause the encoder added — is a
hypothesis of the theorems about `solve`. -/
inductive SolverResult : Type where
  | Sat (model : Nat → Bool)
  | Unsat
  | Unknown

/-- The model read-back in `FbasAnalyzer::solve`: a validator index enters
`quorum_a` when its A-literal is true in the model, and `quorum_b` when its
B-literal is true. -/
def liftModel (f : Fbas) (m : Nat → Bool) : List Nat × List Nat :=
  let n := f.nodes.length
  (f.validators.filter (fun ni => m (inQuorumA n ni).var),
   f.validators.filter (fun ni => m (inQuorumB n ni).var))

/-- `FbasAnalyzer::solve`, parameterised by the external solver outcome. -/
def solve (f : Fbas) (result : SolverResult) : SolveStatus :=
  match result with
  | .Sat model => .SAT (liftModel f model)
  | .Unsat => .UNSAT
  | .Unknown => .UNKNOWN

/-! ### Spec-side clause description (for the refinement claims C2/C3) -/

/-- Modelled from the spec (§4.4, slice satisfaction): the clauses emitted
for the combinations `cs` of a vertex with quorum-membership literal `aq`,
when the next fresh Tseitin variable is `b`: for each combination, one
clause `(¬Q(v) ∨ ¬x_j ∨ Q(s))` per member `s`, then the clause
`(¬Q(v) ∨ x_j ∨ ¬Q(s_1) ∨ … ∨ ¬Q(s_t))`. -/
def combClauses (aq : Lit) (inq : Nat → Lit) (b : Nat) :
    List (List Nat) → List Clause
  | [] => []
  | c :: rest =>
    (c.map (fun s => [negL aq, negL { var := b, sign := true }, inq s]) ++
      [negL aq :: { var := b, sign := true } :: c.map (fun s => negL (inq s))]) ++
    combClauses aq inq (b + 1) rest

/-- The Tseitin literals `x_{v,1} … x_{v,m}` allocated for one vertex,
starting at variable `b`. -/
def xsLits (b m : Nat) : List Lit :=
  (List.range m).map (fun j => { var := b + j, sign := true })

/-- Modelled from the spec (§4.4): all slice clauses of one vertex — the
per-combination clauses followed by the "witness exists" clause
`(¬Q(v) ∨ x_1 ∨ … ∨ x_m)`. -/
def sliceClausesSpec (f : Fbas) (inq : Nat → Lit) (b : Nat) (ni : Nat) :
    List Clause :=
  let aq := inq ni
  let cs := combinations (vertexThreshold f ni) (neighborsOf f ni)
  combClauses aq inq b cs ++ [negL aq :: xsLits b cs.length]

/-- Number of Tseitin variables one vertex consumes. -/
def numCombs (f : Fbas) (ni : Nat) : Nat :=
  (combinations (vertexThreshold f ni) (neighborsOf f ni)).length

/-- One whole slice pass (A or B) in spec form: slice clauses of the listed
vertices, with the Tseitin counter threaded left to right from `b`. -/
def slicePassSpec (f : Fbas) (inq : Nat → Lit) : Nat → List Nat → List Clause
  | _, [] => []
  | b, ni :: rest =>
    sliceClausesSpec f inq b ni ++
    slicePassSpec f inq (b + numCombs f ni) rest

/-- Total number of Tseitin variables of one slice pass over `l`. -/
def slicePassVars (f : Fbas) : List Nat → Nat
  | [] => 0
  | ni :: rest => numCombs f ni + slicePassVars f rest

/-! ### Quorum semantics (the property the claims are stated against) -/

/-- Modelled from the spec (§4.4 and claim C1): a vertex is "in the quorum"
of a validator set `quorum` when it is a validator belonging to `quorum`,
or a qset vertex at least `threshold` of whose graph successors are in the
quorum, recursively.  `fuel` bounds the recursion depth; on the builder's
graphs every qset's successors have strictly smaller indices, so any fuel
above the vertex index computes the fixpoint. -/
def vertexInQuorum (f : Fbas) (quorum : List Nat) : Nat → Nat → Bool
  | 0, _ => false
  | fuel + 1, i =>
    match f.nodes[i]? with
    | some (Vertex.Validator _) => quorum.contains i
    | some (Vertex.QSet q) =>
      decide (q.threshold ≤
        ((f.succs.getD i []).filter (fun j => vertexInQuorum f quorum fuel j)).length)
    | none => false

/-- Modelled from the spec and claim C1: a non-empty vertex set is a quorum
when every member's vertex has at least its threshold of graph successors
in the quorum, recursively through qset vertices. -/
def isQuorum (f : Fbas) (quorum : List Nat) : Prop :=
  quorum ≠ [] ∧ ∀ v ∈ quorum,
    vertexThreshold f v ≤
      ((f.succs.getD v []).filter
        (fun j => vertexInQuorum f quorum f.nodes.length j)).length

instance (f : Fbas) (q : List Nat) : Decidable (isQuorum f q) :=
  inferInstanceAs (Decidable (_ ≠ [] ∧ ∀ v ∈ q, _ ≤ _))

instance (qsm : List (String × InternalScpQuorumSet)) : Decidable (QsmWF qsm) :=
  inferInstanceAs (Decidable (_ ∧ _))

instance : DecidableEq (Except FbasError Fbas) := fun a b =>
  match a, b with
  | .ok x, .ok y =>
    if h : x = y then isTrue (by rw [h])
    else isFalse (by intro hc; injection hc; contradiction)
  | .error x, .error y =>
    if h : x = y then isTrue (by rw [h])
    else isFalse (by intro hc; injection hc; contradiction)
  | .ok _, .error _ => isFalse (by intro hc; injection hc)
  | .error _, .ok _ => isFalse (by intro hc; injection hc)

/-! ### Concrete fixtures used by the witness theorems -/

/-- Fixture: two validators, each being its own threshold-1 quorum set, so
that `{a}` and `{b}` are disjoint quorums (the split scenario). -/
def qsmW : List (String × InternalScpQuorumSet) :=
  [("a", .mk 1 ["a"] []), ("b", .mk 1 ["b"] [])]

/-- The graph `fromQuorumSetMap qsmW` builds. -/
def fbW : Fbas :=
  { nodes := [Vertex.Validator "a", Vertex.Validator "b",
      Vertex.QSet { threshold := 1, validators := [0], inner_qsets := [] },
      Vertex.QSet { threshold := 1, validators := [1], inner_qsets := [] }]
    succs := [[2], [3], [0], [1]]
    validators := [0, 1] }

/-- A satisfying model of `constructFormula fbW`: quorum A is vertex 0 with
its qset vertex 2, quorum B is vertex 1 with its qset vertex 3, and the
Tseitin variables of the active combinations are set accordingly. -/
def sigmaW : Nat → Bool := fun n => [0, 2, 5, 7, 8, 10, 13, 15].contains n

/-- Fixture for the threshold-overflow scenario: validator `a` declares a
threshold-2 quorum set over itself and the unknown validator `zz`. -/
def qsmT : List (String × InternalScpQuorumSet) :=
  [("a", .mk 2 ["a", "zz"] [])]

/-- The graph `fromQuorumSetMap qsmT` builds: the qset vertex keeps
threshold 2 but has a single successor, because `zz` was dropped. -/
def fbT : Fbas :=
  { nodes := [Vertex.Validator "a",
      Vertex.QSet { threshold := 2, validators := [0], inner_qsets := [] }]
    succs := [[1], [0]]
    validators := [0] }

/-- A quorum set nested `n + 1` levels deep. -/
def chainQset : Nat → InternalScpQuorumSet
  | 0 => .mk 1 ["a"] []
  | n + 1 => .mk 1 [] [chainQset n]

/-! ### Builder invariants -/

/-- The association list `known_validators` built by the first pass over a
key list, starting at node index `base`. -/
def kvOf (keys : List String) (base : Nat) : List (String × Nat) :=
  match keys with
  | [] => []
  | s :: rest => (s, base) :: kvOf rest (base + 1)

/-- Structural invariant of a fully built `Fbas` graph over the top-level
key list `keys`: the first `keys.length` vertices are the validators in
registration order, each with a single qset successor; every later vertex
is a qset vertex whose successor list is exactly its member sets, validator
members pointing below `keys.length` and inner-qset members pointing to
earlier qset vertices. -/
structure FbasGood (keys : List String) (f : Fbas) : Prop where
  hlen : f.succs.length = f.nodes.length
  hn : keys.length ≤ f.nodes.length
  hvalidators : f.validators = List.range keys.length
  hvnode : ∀ i, i < keys.length →
    f.nodes[i]? = some (Vertex.Validator (keys.getD i ""))
  hvsucc : ∀ i, i < keys.length →
    ∃ j, neighborsOf f i = [j] ∧ keys.length ≤ j ∧ j < f.nodes.length
  hqnode : ∀ i, keys.length ≤ i → i < f.nodes.length →
    ∃ q, f.nodes[i]? = some (Vertex.QSet q) ∧
      neighborsOf f i = q.validators ++ q.inner_qsets ∧
      (∀ j ∈ q.validators, j < keys.length) ∧
      (∀ j ∈ q.inner_qsets, keys.length ≤ j ∧ j < i) ∧
      List.Chain' (· < ·) q.validators ∧ List.Chain' (· < ·) q.inner_qsets

/-- Mid-build invariant on the threaded builder state: like `FbasGood`
except that a validator not yet visited by the second pass still has an
empty successor list, and the interning table is consistent with the
graph. -/
structure BuildGood (keys : List String) (st : BuildSt) : Prop where
  hlen : st.fbas.succs.length = st.fbas.nodes.length
  hn : keys.length ≤ st.fbas.nodes.length
  hvalidators : st.fbas.validators = List.range keys.length
  hvnode : ∀ i, i < keys.length →
    st.fbas.nodes[i]? = some (Vertex.Validator (keys.getD i ""))
  hvsucc : ∀ i, i < keys.length →
    neighborsOf st.fbas i = [] ∨
    ∃ j, neighborsOf st.fbas i = [j] ∧ keys.length ≤ j ∧
      j < st.fbas.nodes.length
  hqnode : ∀ i, keys.length ≤ i → i < st.fbas.nodes.length →
    ∃ q, st.fbas.nodes[i]? = some (Vertex.QSet q) ∧
      neighborsOf st.fbas i = q.validators ++ q.inner_qsets ∧
      (∀ j ∈ q.validators, j < keys.length) ∧
      (∀ j ∈ q.inner_qsets, keys.length ≤ j ∧ j < i) ∧
      List.Chain' (· < ·) q.validators ∧ List.Chain' (· < ·) q.inner_qsets
  hknown : ∀ p ∈ st.known_qsets, keys.length ≤ p.2 ∧
    p.2 < st.fbas.nodes.length ∧ st.fbas.nodes[p.2]? = some (Vertex.QSet p.1)

/-- Monotone extension between builder states during qset interning: nodes
are only appended, existing successor lists are untouched, the validator
list is fixed and the interning table only grows. -/
structure StExt (st st2 : BuildSt) : Prop where
  hlen : st.fbas.nodes.length ≤ st2.fbas.nodes.length
  hnodes : ∀ i, i < st.fbas.nodes.length → st2.fbas.nodes[i]? = st.fbas.nodes[i]?
  hsuccs : ∀ i, i < st.fbas.nodes.length →
    neighborsOf st2.fbas i = neighborsOf st.fbas i
  hvals : st2.fbas.validators = st.fbas.validators
  hknown : ∀ p ∈ st.known_qsets, p ∈ st2.known_qsets

/-- All indices produced by validator lookup are validator indices. -/
def KvGood (keys : List String) (kv : List (String × Nat)) : Prop :=
  ∀ s i, lookupValidator kv s = some i → i < keys.length ∧ keys.getD i "" = s

end SQA

namespace SQA

/-! ## Theorems -/

theorem getD_append_left {α : Type} {l m : List α} {i : Nat}
    (h : i < l.length) (d : α) : (l ++ m).getD i d = l.getD i d := by
  simp [List.getD_eq_getElem?_getD, List.getElem?_append_left h]

theorem getD_append_right {α : Type} {l m : List α} {i : Nat}
    (h : l.length ≤ i) (d : α) :
    (l ++ m).getD i d = m.getD (i - l.length) d := by
  simp [List.getD_eq_getElem?_getD, List.getElem?_append_right h]

theorem getD_set_self {α : Type} {l : List α} {i : Nat} {x : α}
    (h : i < l.length) (d : α) : (l.set i x).getD i d = x := by
  simp [List.getD_eq_getElem?_getD, List.getElem?_set_self h]

theorem getD_set_ne {α : Type} {l : List α} {i j : Nat} {x : α}
    (h : i ≠ j) (d : α) : (l.set i x).getD j d = l.getD j d := by
  simp [List.getD_eq_getElem?_getD, List.getElem?_set_ne h]

theorem mem_btreeSetInsert {x a : Nat} : ∀ {l : List Nat},
    a ∈ btreeSetInsert x l ↔ a = x ∨ a ∈ l := by
  intro l
  induction l with
  | nil => simp [btreeSetInsert]
  | cons y rest ih =>
    by_cases h1 : x < y
    · simp [btreeSetInsert, h1]
    · by_cases h2 : x = y
      · subst h2
        simp [btreeSetInsert, h1]
      · simp only [btreeSetInsert, if_neg h1, if_neg h2, List.mem_cons, ih]
        tauto

theorem pairwise_lt_btreeSetInsert {x : Nat} : ∀ {l : List Nat},
    List.Pairwise (· < ·) l → List.Pairwise (· < ·) (btreeSetInsert x l) := by
  intro l
  induction l with
  | nil => intro _; simp [btreeSetInsert]
  | cons y rest ih =>
    intro hp
    rcases List.pairwise_cons.mp hp with ⟨hy, htail⟩
    by_cases h1 : x < y
    · rw [btreeSetInsert, if_pos h1]
      refine List.pairwise_cons.mpr ⟨?_, hp⟩
      intro z hz
      rcases List.mem_cons.mp hz with rfl | hz2
      · exact h1
      · exact h1.trans (hy z hz2)
    · by_cases h2 : x = y
      · rw [btreeSetInsert, if_neg h1, if_pos h2]
        exact hp
      · rw [btreeSetInsert, if_neg h1, if_neg h2]
        refine List.pairwise_cons.mpr ⟨?_, ih htail⟩
        intro z hz
        rcases mem_btreeSetInsert.mp hz with rfl | hz2
        · omega
        · exact hy z hz2

theorem chain'_lt_btreeSetInsert {x : Nat} {l : List Nat}
    (h : List.Chain' (· < ·) l) :
    List.Chain' (· < ·) (btreeSetInsert x l) := by
  rw [List.chain'_iff_pairwise] at h ⊢
  exact pairwise_lt_btreeSetInsert h

theorem chain'_lt_fold_btreeSetInsert {l : List Nat} : ∀ {init : List Nat},
    List.Chain' (· < ·) init →
    List.Chain' (· < ·) (l.foldl (fun acc i => btreeSetInsert i acc) init) := by
  induction l with
  | nil => intro init h; exact h
  | cons y rest ih =>
    intro init h
    exact ih (chain'_lt_btreeSetInsert h)

theorem mem_fold_btreeSetInsert {a : Nat} : ∀ {l init : List Nat},
    (a ∈ l.foldl (fun acc i => btreeSetInsert i acc) init ↔ a ∈ init ∨ a ∈ l) := by
  intro l
  induction l with
  | nil => simp
  | cons y rest ih =>
    intro init
    simp only [List.foldl_cons, ih, mem_btreeSetInsert, List.mem_cons]
    tauto

theorem nodup_of_chain'_lt {l : List Nat} (h : List.Chain' (· < ·) l) :
    l.Nodup := by
  rw [List.chain'_iff_pairwise] at h
  exact h.imp Nat.ne_of_lt

theorem lookupValidator_kvOf_some : ∀ {keys : List String} {base s i},
    lookupValidator (kvOf keys base) s = some i →
    ∃ k, k < keys.length ∧ i = base + k ∧ keys.getD k "" = s := by
  intro keys
  induction keys with
  | nil => intro base s i h; simp [kvOf, lookupValidator] at h
  | cons a rest ih =>
    intro base s i h
    rw [kvOf, lookupValidator] at h
    by_cases ha : a = s
    · rw [if_pos ha] at h
      injection h with h
      exact ⟨0, by simp, by omega, by simpa using ha⟩
    · rw [if_neg ha] at h
      rcases ih h with ⟨k, hk, hi, hs⟩
      exact ⟨k + 1, by simp; omega, by omega, by simpa using hs⟩

theorem lookupValidator_kvOf_getD : ∀ {keys : List String} {base k : Nat},
    keys.Nodup → k < keys.length →
    lookupValidator (kvOf keys base) (keys.getD k "") = some (base + k) := by
  intro keys
  induction keys with
  | nil => intro base k _ h; simp at h
  | cons a rest ih =>
    intro base k hnd hk
    rcases List.nodup_cons.mp hnd with ⟨ha, hrest⟩
    match k with
    | 0 => simp [kvOf, lookupValidator]
    | k + 1 =>
      have hgd : (a :: rest).getD (k + 1) "" = rest.getD k "" := by simp
      rw [hgd, kvOf, lookupValidator]
      have hne : a ≠ rest.getD k "" := by
        intro hc
        have hk2 : k < rest.length := by simpa using hk
        have hmem : rest.getD k "" ∈ rest := by
          rw [List.getD_eq_getElem?_getD, List.getElem?_eq_getElem hk2]
          exact List.getElem_mem hk2
        exact ha (hc ▸ hmem)
      rw [if_neg hne, ih hrest (by simpa using hk)]
      congr 1
      omega

theorem firstPass_eq : ∀ (l : List (String × InternalScpQuorumSet)) f kv,
    firstPass l f kv =
    ({ nodes := f.nodes ++ l.map (fun e => Vertex.Validator e.1)
       succs := f.succs ++ l.map (fun _ => [])
       validators :=
         f.validators ++ (List.range l.length).map (fun k => f.nodes.length + k) },
     kv ++ kvOf (l.map Prod.fst) f.nodes.length) := by
  intro l
  induction l with
  | nil =>
    intro f kv
    simp [firstPass, kvOf]
  | cons e rest ih =>
    intro f kv
    rcases e with ⟨s, q⟩
    rw [firstPass, ih]
    simp only [addValidator, List.length_append, List.length_cons,
      List.length_nil, Nat.zero_add]
    rw [Prod.mk.injEq]
    constructor
    · simp only [Fbas.mk.injEq, List.map_cons]
      refine ⟨by simp, by simp, ?_⟩
      rw [List.append_assoc]
      congr 1
      rw [List.range_succ_eq_map, List.map_cons, List.map_map]
      simp only [List.singleton_append, List.cons.injEq]
      refine ⟨by omega, List.map_congr_left ?_⟩
      intro a _
      simp only [Function.comp]
      omega
    · rw [List.map_cons, kvOf, List.append_assoc]
      rfl

theorem updateEdge_mem {f : Fbas} {src tgt : Nat}
    (h : tgt ∈ neighborsOf f src) : updateEdge f src tgt = f := by
  simp only [neighborsOf] at h
  simp only [updateEdge]
  rw [if_pos h]

theorem updateEdge_nodes (f : Fbas) (src tgt : Nat) :
    (updateEdge f src tgt).nodes = f.nodes := by
  simp only [updateEdge]
  split <;> rfl

theorem updateEdge_validators (f : Fbas) (src tgt : Nat) :
    (updateEdge f src tgt).validators = f.validators := by
  simp only [updateEdge]
  split <;> rfl

theorem updateEdge_succs_length (f : Fbas) (src tgt : Nat) :
    (updateEdge f src tgt).succs.length = f.succs.length := by
  simp only [updateEdge]
  split
  · rfl
  · simp

theorem neighborsOf_updateEdge_ne {f : Fbas} {src tgt i : Nat} (h : i ≠ src) :
    neighborsOf (updateEdge f src tgt) i = neighborsOf f i := by
  simp only [updateEdge, neighborsOf]
  split
  · rfl
  · exact getD_set_ne (fun hc => h hc.symm) []

theorem neighborsOf_updateEdge_self {f : Fbas} {src tgt : Nat}
    (hlt : src < f.succs.length) :
    neighborsOf (updateEdge f src tgt) src =
    if tgt ∈ neighborsOf f src then neighborsOf f src
    else neighborsOf f src ++ [tgt] := by
  simp only [updateEdge, neighborsOf]
  split
  · rfl
  · exact getD_set_self hlt []

theorem fold_updateEdge_nodes {idx : Nat} : ∀ {l : List Nat} {f : Fbas},
    (l.foldl (fun g x => updateEdge g idx x) f).nodes = f.nodes := by
  intro l
  induction l with
  | nil => intro f; rfl
  | cons y rest ih => intro f; rw [List.foldl_cons, ih, updateEdge_nodes]

theorem fold_updateEdge_validators {idx : Nat} : ∀ {l : List Nat} {f : Fbas},
    (l.foldl (fun g x => updateEdge g idx x) f).validators = f.validators := by
  intro l
  induction l with
  | nil => intro f; rfl
  | cons y rest ih => intro f; rw [List.foldl_cons, ih, updateEdge_validators]

theorem fold_updateEdge_succs_length {idx : Nat} : ∀ {l : List Nat} {f : Fbas},
    (l.foldl (fun g x => updateEdge g idx x) f).succs.length =
    f.succs.length := by
  intro l
  induction l with
  | nil => intro f; rfl
  | cons y rest ih =>
    intro f
    rw [List.foldl_cons, ih, updateEdge_succs_length]

theorem neighborsOf_fold_updateEdge_ne {idx i : Nat} (h : i ≠ idx) :
    ∀ {l : List Nat} {f : Fbas},
    neighborsOf (l.foldl (fun g x => updateEdge g idx x) f) i =
    neighborsOf f i := by
  intro l
  induction l with
  | nil => intro f; rfl
  | cons y rest ih =>
    intro f
    rw [List.foldl_cons, ih, neighborsOf_updateEdge_ne h]

theorem neighborsOf_fold_updateEdge_self {idx : Nat} : ∀ {l : List Nat}
    {f : Fbas}, idx < f.succs.length → l.Nodup →
    (∀ x ∈ l, x ∉ neighborsOf f idx) →
    neighborsOf (l.foldl (fun g x => updateEdge g idx x) f) idx =
    neighborsOf f idx ++ l := by
  intro l
  induction l with
  | nil => intro f _ _ _; simp
  | cons y rest ih =>
    intro f hlt hnd hout
    rw [List.foldl_cons]
    have hy : y ∉ neighborsOf f idx := hout y (List.mem_cons_self y rest)
    have hupd : neighborsOf (updateEdge f idx y) idx =
        neighborsOf f idx ++ [y] := by
      rw [neighborsOf_updateEdge_self hlt, if_neg hy]
    rw [ih (by rw [updateEdge_succs_length]; exact hlt)
      (List.nodup_cons.mp hnd).2 ?_, hupd, List.append_assoc]
    · rfl
    · intro x hx
      rw [hupd, List.mem_append, List.mem_singleton]
      rintro (hc | rfl)
      · exact hout x (List.mem_cons_of_mem y hx) hc
      · exact (List.nodup_cons.mp hnd).1 hx

theorem fold_updateEdge_noop {idx : Nat} : ∀ {l : List Nat} {f : Fbas},
    (∀ x ∈ l, x ∈ neighborsOf f idx) →
    l.foldl (fun g x => updateEdge g idx x) f = f := by
  intro l
  induction l with
  | nil => intro f _; rfl
  | cons y rest ih =>
    intro f hin
    rw [List.foldl_cons, updateEdge_mem (hin y (List.mem_cons_self y rest))]
    exact ih (fun x hx => hin x (List.mem_cons_of_mem y hx))

theorem addQsetEdges_noop {st : BuildSt} {idx : Nat} {q : Qset}
    (h : neighborsOf st.fbas idx = q.validators ++ q.inner_qsets) :
    addQsetEdges st idx q = st := by
  unfold addQsetEdges
  rw [fold_updateEdge_noop, fold_updateEdge_noop]
  · intro x hx
    rw [h, List.mem_append]
    exact Or.inl hx
  · rw [fold_updateEdge_noop]
    · intro x hx
      rw [h, List.mem_append]
      exact Or.inr hx
    · intro x hx
      rw [h, List.mem_append]
      exact Or.inl hx

theorem addQsetEdges_fresh {st : BuildSt} {idx : Nat} {q : Qset}
    (hlt : idx < st.fbas.succs.length)
    (hempty : neighborsOf st.fbas idx = [])
    (hndv : q.validators.Nodup) (hndq : q.inner_qsets.Nodup)
    (hdisj : ∀ x ∈ q.validators, x ∉ q.inner_qsets) :
    neighborsOf (addQsetEdges st idx q).fbas idx =
      q.validators ++ q.inner_qsets ∧
    (∀ i, i ≠ idx → neighborsOf (addQsetEdges st idx q).fbas i =
      neighborsOf st.fbas i) ∧
    (addQsetEdges st idx q).fbas.nodes = st.fbas.nodes ∧
    (addQsetEdges st idx q).fbas.validators = st.fbas.validators ∧
    (addQsetEdges st idx q).fbas.succs.length = st.fbas.succs.length ∧
    (addQsetEdges st idx q).known_qsets = st.known_qsets := by
  unfold addQsetEdges
  have hv := neighborsOf_fold_updateEdge_self (l := q.validators)
    (f := st.fbas) hlt hndv (by intro x _; rw [hempty]; simp)
  rw [hempty, List.nil_append] at hv
  have hlen1 : idx <
      (q.validators.foldl (fun g x => updateEdge g idx x) st.fbas).succs.length := by
    rw [fold_updateEdge_succs_length]; exact hlt
  have hq := neighborsOf_fold_updateEdge_self (l := q.inner_qsets)
    (f := q.validators.foldl (fun g x => updateEdge g idx x) st.fbas)
    hlen1 hndq (by
      intro x hx
      rw [hv]
      exact fun hc => hdisj x hc hx)
  rw [hv] at hq
  refine ⟨hq, ?_, ?_, ?_, ?_, rfl⟩
  · intro i hi
    rw [neighborsOf_fold_updateEdge_ne hi, neighborsOf_fold_updateEdge_ne hi]
  · rw [fold_updateEdge_nodes, fold_updateEdge_nodes]
  · rw [fold_updateEdge_validators, fold_updateEdge_validators]
  · rw [fold_updateEdge_succs_length, fold_updateEdge_succs_length]

theorem StExt.refl (st : BuildSt) : StExt st st :=
  ⟨Nat.le_refl _, fun _ _ => rfl, fun _ _ => rfl, rfl, fun _ hp => hp⟩

theorem StExt.comp {s1 s2 s3 : BuildSt} (h1 : StExt s1 s2) (h2 : StExt s2 s3) :
    StExt s1 s3 := by
  refine ⟨h1.hlen.trans h2.hlen, ?_, ?_, h2.hvals.trans h1.hvals,
    fun p hp => h2.hknown p (h1.hknown p hp)⟩
  · intro i hi
    rw [h2.hnodes i (Nat.lt_of_lt_of_le hi h1.hlen), h1.hnodes i hi]
  · intro i hi
    rw [h2.hsuccs i (Nat.lt_of_lt_of_le hi h1.hlen), h1.hsuccs i hi]

theorem addQsetNode_nodes_length (f : Fbas) (q : Qset) :
    (addQsetNode f q).nodes.length = f.nodes.length + 1 := by
  simp [addQsetNode]

theorem addQsetNode_succs_length (f : Fbas) (q : Qset) :
    (addQsetNode f q).succs.length = f.succs.length + 1 := by
  simp [addQsetNode]

theorem addQsetNode_nodes_lt {f : Fbas} {q : Qset} {i : Nat}
    (h : i < f.nodes.length) : (addQsetNode f q).nodes[i]? = f.nodes[i]? := by
  simp only [addQsetNode]
  exact List.getElem?_append_left h

theorem addQsetNode_nodes_self (f : Fbas) (q : Qset) :
    (addQsetNode f q).nodes[f.nodes.length]? = some (Vertex.QSet q) := by
  simp only [addQsetNode]
  rw [List.getElem?_append_right (Nat.le_refl _)]
  simp

theorem addQsetNode_validators (f : Fbas) (q : Qset) :
    (addQsetNode f q).validators = f.validators := rfl

theorem neighborsOf_addQsetNode (f : Fbas) (q : Qset) (i : Nat) :
    neighborsOf (addQsetNode f q) i = neighborsOf f i := by
  simp only [neighborsOf, addQsetNode]
  rcases Nat.lt_or_ge i f.succs.length with h | h
  · exact getD_append_left h []
  · rw [getD_append_right h []]
    rw [List.getD_eq_getElem?_getD, List.getD_eq_getElem?_getD,
      List.getElem?_eq_none h]
    rcases Nat.eq_or_lt_of_le h with rfl | h2
    · simp
    · rw [List.getElem?_eq_none (by simp; omega)]

theorem lookupQset_mem : ∀ {kq : List (Qset × Nat)} {q : Qset} {i : Nat},
    lookupQset kq q = some i → (q, i) ∈ kq := by
  intro kq
  induction kq with
  | nil => intro q i h; simp [lookupQset] at h
  | cons p rest ih =>
    intro q i h
    rcases p with ⟨k, v⟩
    rw [lookupQset] at h
    by_cases hk : k = q
    · rw [if_pos hk] at h
      injection h with h
      subst hk h
      exact List.mem_cons_self _ _
    · rw [if_neg hk] at h
      exact List.mem_cons_of_mem _ (ih h)

theorem vIdxs_fold_bound {keys : List String} {kv : List (String × Nat)}
    (hkv : KvGood keys kv) : ∀ {vs : List String} {init : List Nat},
    (∀ j ∈ init, j < keys.length) →
    ∀ j ∈ vs.foldl (fun acc s =>
      match lookupValidator kv s with
      | some i => btreeSetInsert i acc
      | none => acc) init, j < keys.length := by
  intro vs
  induction vs with
  | nil => intro init h; exact h
  | cons s rest ih =>
    intro init h
    rw [List.foldl_cons]
    cases hl : lookupValidator kv s with
    | none => exact ih h
    | some i =>
      refine ih ?_
      intro j hj
      rcases mem_btreeSetInsert.mp hj with rfl | hj2
      · exact (hkv s j hl).1
      · exact h j hj2

theorem neighborsOf_out {f : Fbas} {i : Nat} (h : f.succs.length ≤ i) :
    neighborsOf f i = [] := by
  simp only [neighborsOf]
  rw [List.getD_eq_getElem?_getD, List.getElem?_eq_none h]
  rfl

theorem BuildGood_create {keys : List String} {st1 : BuildSt} {nq : Qset}
    (hg : BuildGood keys st1)
    (hvb : ∀ j ∈ nq.validators, j < keys.length)
    (hib : ∀ j ∈ nq.inner_qsets, keys.length ≤ j ∧ j < st1.fbas.nodes.length)
    (hvch : List.Chain' (· < ·) nq.validators)
    (hich : List.Chain' (· < ·) nq.inner_qsets)
    (st2 : BuildSt)
    (hst2 : st2 = addQsetEdges
      { fbas := addQsetNode st1.fbas nq
        known_qsets := st1.known_qsets ++ [(nq, st1.fbas.nodes.length)] }
      st1.fbas.nodes.length nq) :
    BuildGood keys st2 ∧ StExt st1 st2 ∧
    st2.fbas.nodes.length = st1.fbas.nodes.length + 1 := by
  set idx := st1.fbas.nodes.length with hidx
  set stMid : BuildSt :=
    { fbas := addQsetNode st1.fbas nq
      known_qsets := st1.known_qsets ++ [(nq, idx)] } with hmid
  have hlt : idx < stMid.fbas.succs.length := by
    rw [hmid]
    show idx < (addQsetNode st1.fbas nq).succs.length
    rw [addQsetNode_succs_length, hg.hlen]
    omega
  have hempty : neighborsOf stMid.fbas idx = [] := by
    rw [hmid]
    show neighborsOf (addQsetNode st1.fbas nq) idx = []
    rw [neighborsOf_addQsetNode]
    exact neighborsOf_out (by rw [hg.hlen])
  have hdisj : ∀ x ∈ nq.validators, x ∉ nq.inner_qsets := by
    intro x hx hc
    have := hvb x hx
    have := (hib x hc).1
    omega
  obtain ⟨hsi, hsne, hne, hve, hsle, hke⟩ :=
    @addQsetEdges_fresh stMid idx nq hlt hempty
      (nodup_of_chain'_lt hvch) (nodup_of_chain'_lt hich) hdisj
  have hnodes2 : st2.fbas.nodes = st1.fbas.nodes ++ [Vertex.QSet nq] := by
    rw [hst2, hne]
    rfl
  have hlen2 : st2.fbas.nodes.length = idx + 1 := by
    rw [hnodes2]
    simp [hidx]
  have hsuccs_len2 : st2.fbas.succs.length = st1.fbas.succs.length + 1 := by
    rw [hst2, hsle]
    exact addQsetNode_succs_length _ _
  have hvals2 : st2.fbas.validators = st1.fbas.validators := by
    rw [hst2, hve]
    rfl
  have hknown2 : st2.known_qsets = st1.known_qsets ++ [(nq, idx)] := by
    rw [hst2, hke]
  have hnodes_lt : ∀ i, i < idx → st2.fbas.nodes[i]? = st1.fbas.nodes[i]? := by
    intro i hi
    rw [hnodes2]
    exact List.getElem?_append_left hi
  have hnodes_idx : st2.fbas.nodes[idx]? = some (Vertex.QSet nq) := by
    rw [hnodes2, List.getElem?_append_right (Nat.le_refl _)]
    simp
  have hnbr_idx : neighborsOf st2.fbas idx = nq.validators ++ nq.inner_qsets := by
    rw [hst2]
    exact hsi
  have hnbr_ne : ∀ i, i ≠ idx →
      neighborsOf st2.fbas i = neighborsOf st1.fbas i := by
    intro i hi
    rw [hst2, hsne i hi]
    exact neighborsOf_addQsetNode _ _ _
  refine ⟨?_, ?_, by omega⟩
  · refine ⟨?_, ?_, ?_, ?_, ?_, ?_, ?_⟩
    · rw [hsuccs_len2, hlen2, hg.hlen]
    · rw [hlen2]
      have := hg.hn
      omega
    · rw [hvals2, hg.hvalidators]
    · intro i hi
      rw [hnodes_lt i (by have := hg.hn; omega)]
      exact hg.hvnode i hi
    · intro i hi
      have hine : i ≠ idx := by have := hg.hn; omega
      rw [hnbr_ne i hine]
      rcases hg.hvsucc i hi with h | ⟨j, hj, hj1, hj2⟩
      · exact Or.inl h
      · exact Or.inr ⟨j, hj, hj1, by omega⟩
    · intro i hi1 hi2
      rcases Nat.lt_or_ge i idx with hlt2 | hge
      · obtain ⟨q, hq1, hq2, hq3, hq4, hq5, hq6⟩ := hg.hqnode i hi1 hlt2
        exact ⟨q, by rw [hnodes_lt i hlt2]; exact hq1,
          by rw [hnbr_ne i (by omega)]; exact hq2, hq3, hq4, hq5, hq6⟩
      · have : i = idx := by omega
        subst this
        exact ⟨nq, hnodes_idx, hnbr_idx, hvb,
          fun j hj => ⟨(hib j hj).1, (hib j hj).2⟩, hvch, hich⟩
    · intro p hp
      rw [hknown2] at hp
      rcases List.mem_append.mp hp with hp | hp
      · obtain ⟨h1, h2, h3⟩ := hg.hknown p hp
        exact ⟨h1, by omega, by rw [hnodes_lt p.2 h2]; exact h3⟩
      · rcases List.mem_singleton.mp hp with rfl
        exact ⟨hg.hn, by omega, hnodes_idx⟩
  · refine ⟨by omega, ?_, ?_, by rw [hvals2], ?_⟩
    · intro i hi
      exact hnodes_lt i hi
    · intro i hi
      exact hnbr_ne i (by omega)
    · intro p hp
      rw [hknown2]
      exact List.mem_append_left _ hp

theorem vIdxs_fold_chain' {kv : List (String × Nat)} :
    ∀ {vs : List String} {init : List Nat},
    List.Chain' (· < ·) init →
    List.Chain' (· < ·) (vs.foldl (fun acc s =>
      match lookupValidator kv s with
      | some i => btreeSetInsert i acc
      | none => acc) init) := by
  intro vs
  induction vs with
  | nil => intro init h; exact h
  | cons s rest ih =>
    intro init h
    rw [List.foldl_cons]
    cases hl : lookupValidator kv s with
    | none => exact ih h
    | some i => exact ih (chain'_lt_btreeSetInsert h)

theorem mkQsetValidators_bound {keys : List String} {kv : List (String × Nat)}
    (hkv : KvGood keys kv) (vs : List String) :
    ∀ j ∈ mkQsetValidators kv vs, j < keys.length :=
  vIdxs_fold_bound hkv (by simp)

theorem mkQsetValidators_chain' (kv : List (String × Nat)) (vs : List String) :
    List.Chain' (· < ·) (mkQsetValidators kv vs) :=
  vIdxs_fold_chain' (by simp)

theorem mem_mkQsetInner {a : Nat} {innerIdxs : List Nat} :
    a ∈ mkQsetInner innerIdxs ↔ a ∈ innerIdxs := by
  unfold mkQsetInner
  rw [mem_fold_btreeSetInsert]
  simp

theorem mkQsetInner_chain' (innerIdxs : List Nat) :
    List.Chain' (· < ·) (mkQsetInner innerIdxs) :=
  chain'_lt_fold_btreeSetInsert (by simp)

theorem internQset_spec {keys : List String} {st1 : BuildSt} {nq : Qset}
    (hg : BuildGood keys st1)
    (hvb : ∀ j ∈ nq.validators, j < keys.length)
    (hib : ∀ j ∈ nq.inner_qsets, keys.length ≤ j ∧ j < st1.fbas.nodes.length)
    (hvch : List.Chain' (· < ·) nq.validators)
    (hich : List.Chain' (· < ·) nq.inner_qsets) :
    BuildGood keys (internQset st1 nq).2 ∧ StExt st1 (internQset st1 nq).2 ∧
    keys.length ≤ (internQset st1 nq).1 ∧
    (internQset st1 nq).1 < (internQset st1 nq).2.fbas.nodes.length := by
  cases hlq : lookupQset st1.known_qsets nq with
  | some idx =>
    have hcase : internQset st1 nq = (idx, addQsetEdges st1 idx nq) := by
      unfold internQset
      rw [hlq]
    rw [hcase]
    have hmem := hg.hknown (nq, idx) (lookupQset_mem hlq)
    have hi1 : keys.length ≤ idx := hmem.1
    have hi2 : idx < st1.fbas.nodes.length := hmem.2.1
    have hi3 : st1.fbas.nodes[idx]? = some (Vertex.QSet nq) := hmem.2.2
    obtain ⟨q2, hq1, hq2, _, _, _, _⟩ := hg.hqnode idx hi1 hi2
    have hqeq : q2 = nq := by
      rw [hi3] at hq1
      injection hq1 with h
      injection h with h
      exact h.symm
    subst hqeq
    have hnoop : addQsetEdges st1 idx q2 = st1 := addQsetEdges_noop hq2
    rw [hnoop]
    exact ⟨hg, StExt.refl st1, hi1, hi2⟩
  | none =>
    have hcase : internQset st1 nq =
        (st1.fbas.nodes.length,
         addQsetEdges
           { fbas := addQsetNode st1.fbas nq,
             known_qsets := st1.known_qsets ++ [(nq, st1.fbas.nodes.length)] }
           st1.fbas.nodes.length nq) := by
      unfold internQset
      rw [hlq]
    rw [hcase]
    obtain ⟨hg2, hext2, hlen2⟩ :=
      BuildGood_create hg hvb hib hvch hich _ rfl
    refine ⟨hg2, hext2, hg.hn, ?_⟩
    show st1.fbas.nodes.length <
      (addQsetEdges
        { fbas := addQsetNode st1.fbas nq,
          known_qsets := st1.known_qsets ++ [(nq, st1.fbas.nodes.length)] }
        st1.fbas.nodes.length nq).fbas.nodes.length
    omega

mutual

theorem processScpQuorumSet_spec (keys : List String)
    (kv : List (String × Nat)) (hkv : KvGood keys kv)
    (q : InternalScpQuorumSet) :
    ∀ (d : Nat) (st : BuildSt) (idx : Nat) (st2 : BuildSt),
    BuildGood keys st →
    processScpQuorumSet kv q d st = .ok (idx, st2) →
    BuildGood keys st2 ∧ StExt st st2 ∧ keys.length ≤ idx ∧
    idx < st2.fbas.nodes.length := by
  cases q with
  | mk t vs inner =>
    intro d st idx st2 hg hok
    rw [processScpQuorumSet] at hok
    by_cases hd : d = QUORUM_SET_MAX_DEPTH
    · rw [if_pos hd] at hok
      exact absurd hok (by simp)
    · rw [if_neg hd] at hok
      cases hinner : processInnerSets kv inner (d + 1) st with
      | error e =>
        rw [hinner] at hok
        exact absurd hok (by simp)
      | ok p =>
        obtain ⟨innerIdxs, st1⟩ := p
        rw [hinner] at hok
        obtain ⟨hg1, hext1, hbnds⟩ :=
          processInnerSets_spec keys kv hkv inner (d + 1) st innerIdxs st1
            hg hinner
        injection hok with hok
        have hres := @internQset_spec keys st1
          { threshold := t
            validators := mkQsetValidators kv vs
            inner_qsets := mkQsetInner innerIdxs } hg1
          (mkQsetValidators_bound hkv vs)
          (by
            intro j hj
            exact hbnds j (mem_mkQsetInner.mp hj))
          (mkQsetValidators_chain' kv vs) (mkQsetInner_chain' innerIdxs)
        rw [hok] at hres
        exact ⟨hres.1, hext1.comp hres.2.1, hres.2.2⟩

theorem processInnerSets_spec (keys : List String)
    (kv : List (String × Nat)) (hkv : KvGood keys kv)
    (qs : List InternalScpQuorumSet) :
    ∀ (d : Nat) (st : BuildSt) (is : List Nat) (st2 : BuildSt),
    BuildGood keys st →
    processInnerSets kv qs d st = .ok (is, st2) →
    BuildGood keys st2 ∧ StExt st st2 ∧
    ∀ r ∈ is, keys.length ≤ r ∧ r < st2.fbas.nodes.length := by
  cases qs with
  | nil =>
    intro d st is st2 hg hok
    rw [processInnerSets] at hok
    injection hok with hok
    injection hok with h1 h2
    subst h1
    subst h2
    exact ⟨hg, StExt.refl st, by simp⟩
  | cons q rest =>
    intro d st is st2 hg hok
    rw [processInnerSets] at hok
    cases h1 : processScpQuorumSet kv q d st with
    | error e =>
      rw [h1] at hok
      exact absurd hok (by simp)
    | ok p =>
      obtain ⟨i, st1⟩ := p
      rw [h1] at hok
      have hok2 : (match processInnerSets kv rest d st1 with
          | Except.error e => Except.error e
          | Except.ok (is2, stf) => Except.ok (i :: is2, stf)) =
          Except.ok (is, st2) := hok
      cases h2 : processInnerSets kv rest d st1 with
      | error e =>
        rw [h2] at hok2
        exact absurd hok2 (by simp)
      | ok p2 =>
        obtain ⟨is2, stf⟩ := p2
        rw [h2] at hok2
        injection hok2 with hok2
        injection hok2 with hx1 hx2
        subst hx1
        subst hx2
        obtain ⟨hg1, hext1, hb1, hb2⟩ :=
          processScpQuorumSet_spec keys kv hkv q d st i st1 hg h1
        obtain ⟨hg2, hext2, hbs⟩ :=
          processInnerSets_spec keys kv hkv rest d st1 is2 stf hg1 h2
        refine ⟨hg2, hext1.comp hext2, ?_⟩
        intro r hr
        rcases List.mem_cons.mp hr with rfl | hr2
        · exact ⟨hb1, Nat.lt_of_lt_of_le hb2 hext2.hlen⟩
        · exact hbs r hr2

end

theorem addEdge_nodes (f : Fbas) (src tgt : Nat) :
    (addEdge f src tgt).nodes = f.nodes := rfl

theorem addEdge_validators (f : Fbas) (src tgt : Nat) :
    (addEdge f src tgt).validators = f.validators := rfl

theorem addEdge_succs_length (f : Fbas) (src tgt : Nat) :
    (addEdge f src tgt).succs.length = f.succs.length := by
  simp [addEdge]

theorem neighborsOf_addEdge_self {f : Fbas} {src tgt : Nat}
    (h : src < f.succs.length) :
    neighborsOf (addEdge f src tgt) src = neighborsOf f src ++ [tgt] := by
  simp only [addEdge, neighborsOf]
  exact getD_set_self h []

theorem neighborsOf_addEdge_ne {f : Fbas} {src tgt i : Nat} (h : i ≠ src) :
    neighborsOf (addEdge f src tgt) i = neighborsOf f i := by
  simp only [addEdge, neighborsOf]
  exact getD_set_ne (fun hc => h hc.symm) []

theorem secondPass_spec (keys : List String) (kv : List (String × Nat))
    (hkv : KvGood keys kv) :
    ∀ (entries : List (String × InternalScpQuorumSet)) (st : BuildSt)
      (f : Fbas),
    BuildGood keys st →
    (∀ e ∈ entries, ∃ i, lookupValidator kv e.1 = some i ∧
      neighborsOf st.fbas i = []) →
    (entries.map Prod.fst).Nodup →
    secondPass kv entries st = .ok f →
    ∃ stf : BuildSt, stf.fbas = f ∧ BuildGood keys stf ∧
    st.fbas.nodes.length ≤ f.nodes.length ∧
    ∀ i, i < keys.length →
      ((∃ e ∈ entries, lookupValidator kv e.1 = some i) →
        ∃ j, neighborsOf f i = [j] ∧ keys.length ≤ j ∧ j < f.nodes.length) ∧
      ((¬ ∃ e ∈ entries, lookupValidator kv e.1 = some i) →
        neighborsOf f i = neighborsOf st.fbas i) := by
  intro entries
  induction entries with
  | nil =>
    intro st f hg _ _ hok
    rw [secondPass] at hok
    injection hok with hok
    subst hok
    refine ⟨st, rfl, hg, Nat.le_refl _, ?_⟩
    intro i _
    exact ⟨by simp, fun _ => rfl⟩
  | cons e rest ih =>
    intro st f hg hempty hnodup hok
    rcases e with ⟨s, q⟩
    rw [secondPass] at hok
    obtain ⟨v_idx, hlv, hvempty⟩ :=
      hempty (s, q) (List.mem_cons_self _ _)
    rw [hlv] at hok
    cases hp : processScpQuorumSet kv q 0 st with
    | error e2 =>
      rw [hp] at hok
      exact absurd hok (by simp)
    | ok p =>
      obtain ⟨q_idx, st1⟩ := p
      rw [hp] at hok
      have hok2 : secondPass kv rest
          { st1 with fbas := addEdge st1.fbas v_idx q_idx } = .ok f := hok
      obtain ⟨hg1, hext1, hqb1, hqb2⟩ :=
        processScpQuorumSet_spec keys kv hkv q 0 st q_idx st1 hg hp
      obtain ⟨hv1, hv2⟩ := hkv s v_idx hlv
      set stM : BuildSt := { st1 with fbas := addEdge st1.fbas v_idx q_idx }
        with hstM
      have hnodesM : stM.fbas.nodes = st1.fbas.nodes := rfl
      have hvalsM : stM.fbas.validators = st1.fbas.validators := rfl
      have hknownM : stM.known_qsets = st1.known_qsets := rfl
      have hlenM : stM.fbas.succs.length = st1.fbas.succs.length :=
        addEdge_succs_length _ _ _
      have hvlt1 : v_idx < st1.fbas.succs.length := by
        rw [hg1.hlen]
        exact Nat.lt_of_lt_of_le hv1 hg1.hn
      have hnbrM_self : neighborsOf stM.fbas v_idx = [q_idx] := by
        rw [hstM]
        show neighborsOf (addEdge st1.fbas v_idx q_idx) v_idx = [q_idx]
        rw [neighborsOf_addEdge_self hvlt1,
          hext1.hsuccs v_idx (Nat.lt_of_lt_of_le hv1 hg.hn), hvempty]
        rfl
      have hnbrM_ne : ∀ i, i ≠ v_idx →
          neighborsOf stM.fbas i = neighborsOf st1.fbas i := by
        intro i hi
        rw [hstM]
        exact neighborsOf_addEdge_ne hi
      have hgM : BuildGood keys stM := by
        refine ⟨?_, ?_, ?_, ?_, ?_, ?_, ?_⟩
        · rw [hlenM, hnodesM]
          exact hg1.hlen
        · rw [hnodesM]
          exact hg1.hn
        · rw [hvalsM]
          exact hg1.hvalidators
        · intro i hi
          rw [hnodesM]
          exact hg1.hvnode i hi
        · intro i hi
          by_cases hiv : i = v_idx
          · subst hiv
            refine Or.inr ⟨q_idx, hnbrM_self, hqb1, ?_⟩
            rw [hnodesM]
            exact hqb2
          · rw [hnbrM_ne i hiv, hnodesM]
            exact hg1.hvsucc i hi
        · intro i hi1 hi2
          rw [hnodesM] at hi2 ⊢
          have hiv : i ≠ v_idx := by omega
          rw [hnbrM_ne i hiv]
          exact hg1.hqnode i hi1 hi2
        · intro p hp2
          rw [hknownM] at hp2
          rw [hnodesM]
          exact hg1.hknown p hp2
      have hnodup2 : (rest.map Prod.fst).Nodup := by
        rw [List.map_cons, List.nodup_cons] at hnodup
        exact hnodup.2
      have hs_notin : s ∉ rest.map Prod.fst := by
        rw [List.map_cons, List.nodup_cons] at hnodup
        exact hnodup.1
      have hrest_keys_ne : ∀ e2 ∈ rest, (e2 : String × InternalScpQuorumSet).1 ≠ s := by
        intro e2 he2 hc
        exact hs_notin (hc ▸ List.mem_map_of_mem Prod.fst he2)
      have hlookup_ne : ∀ e2 ∈ rest,
          ∀ i, lookupValidator kv (e2 : String × InternalScpQuorumSet).1 =
            some i → i ≠ v_idx := by
        intro e2 he2 i hl hc
        subst hc
        obtain ⟨_, hkey⟩ := hkv e2.1 i hl
        exact hrest_keys_ne e2 he2 (hkey.symm.trans hv2)
      have hempty2 : ∀ e2 ∈ rest,
          ∃ i, lookupValidator kv (e2 : String × InternalScpQuorumSet).1 =
            some i ∧ neighborsOf stM.fbas i = [] := by
        intro e2 he2
        obtain ⟨i, hl, hie⟩ := hempty e2 (List.mem_cons_of_mem _ he2)
        refine ⟨i, hl, ?_⟩
        have hiv : i ≠ v_idx := hlookup_ne e2 he2 i hl
        rw [hnbrM_ne i hiv,
          hext1.hsuccs i (Nat.lt_of_lt_of_le (hkv e2.1 i hl).1 hg.hn), hie]
      obtain ⟨stf, hstf, hgf, hlenf, hcov⟩ :=
        ih stM f hgM hempty2 hnodup2 hok2
      have hlenM2 : stM.fbas.nodes.length = st1.fbas.nodes.length := by
        rw [hnodesM]
      refine ⟨stf, hstf, hgf, ?_, ?_⟩
      · calc st.fbas.nodes.length ≤ st1.fbas.nodes.length := hext1.hlen
          _ = stM.fbas.nodes.length := hlenM2.symm
          _ ≤ f.nodes.length := hlenf
      · intro i hi
        constructor
        · rintro ⟨e2, he2, hl⟩
          rcases List.mem_cons.mp he2 with rfl | he3
          · have hieq : i = v_idx := by
              rw [hlv] at hl
              injection hl with h
              exact h.symm
            subst hieq
            have hnorest : ¬ ∃ e3 ∈ rest,
                lookupValidator kv
                  (e3 : String × InternalScpQuorumSet).1 = some i := by
              rintro ⟨e3, he3, hl3⟩
              exact hlookup_ne e3 he3 i hl3 rfl
            have heq := (hcov i hi).2 hnorest
            refine ⟨q_idx, by rw [heq, hnbrM_self], hqb1, ?_⟩
            have : q_idx < stM.fbas.nodes.length := by
              rw [hlenM2]
              exact hqb2
            omega
          · exact (hcov i hi).1 ⟨e2, he3, hl⟩
        · intro hno
          have hno2 : ¬ ∃ e3 ∈ rest,
              lookupValidator kv
                (e3 : String × InternalScpQuorumSet).1 = some i := by
            rintro ⟨e3, he3, hl3⟩
            exact hno ⟨e3, List.mem_cons_of_mem _ he3, hl3⟩
          have hiv : i ≠ v_idx := by
            rintro rfl
            exact hno ⟨(s, q), List.mem_cons_self _ _, hlv⟩
          rw [(hcov i hi).2 hno2, hnbrM_ne i hiv,
            hext1.hsuccs i (Nat.lt_of_lt_of_le hi hg.hn)]

theorem kvGood_kvOf (keys : List String) : KvGood keys (kvOf keys 0) := by
  intro s i hl
  obtain ⟨k, hk, hik, hks⟩ := lookupValidator_kvOf_some hl
  have hik2 : i = k := by omega
  subst hik2
  exact ⟨hk, hks⟩

theorem firstPass_fbas (qsm : List (String × InternalScpQuorumSet)) :
    (firstPass qsm emptyFbas []).1 =
    { nodes := qsm.map (fun e => Vertex.Validator e.1)
      succs := qsm.map (fun _ => [])
      validators := List.range qsm.length } := by
  rw [firstPass_eq]
  simp only [emptyFbas, List.nil_append, Fbas.mk.injEq]
  refine ⟨trivial, trivial, ?_⟩
  have : ∀ k ∈ List.range qsm.length,
      (fun k => List.length ([] : List Vertex) + k) k = id k := by
    intro k _
    simp
  rw [List.map_congr_left this, List.map_id]

theorem firstPass_kv (qsm : List (String × InternalScpQuorumSet)) :
    (firstPass qsm emptyFbas []).2 = kvOf (qsm.map Prod.fst) 0 := by
  rw [firstPass_eq]
  simp [emptyFbas]

theorem initial_neighborsOf (qsm : List (String × InternalScpQuorumSet))
    (i : Nat) : neighborsOf (firstPass qsm emptyFbas []).1 i = [] := by
  rw [firstPass_fbas]
  simp only [neighborsOf]
  rw [List.getD_eq_getElem?_getD]
  rcases Nat.lt_or_ge i qsm.length with h | h
  · rw [List.getElem?_map, List.getElem?_eq_getElem h]
    rfl
  · rw [List.getElem?_eq_none (by simpa using h)]
    rfl

theorem initial_BuildGood (qsm : List (String × InternalScpQuorumSet)) :
    BuildGood (qsm.map Prod.fst)
      { fbas := (firstPass qsm emptyFbas []).1, known_qsets := [] } := by
  have hfb := firstPass_fbas qsm
  have hnlen : (firstPass qsm emptyFbas []).1.nodes.length = qsm.length := by
    rw [hfb]
    simp
  refine ⟨?_, ?_, ?_, ?_, ?_, ?_, ?_⟩
  · show (firstPass qsm emptyFbas []).1.succs.length =
      (firstPass qsm emptyFbas []).1.nodes.length
    rw [hfb]
    simp
  · show (qsm.map Prod.fst).length ≤ _
    rw [hnlen]
    simp
  · show (firstPass qsm emptyFbas []).1.validators = _
    rw [hfb]
    simp
  · intro i hi
    rw [List.length_map] at hi
    show (firstPass qsm emptyFbas []).1.nodes[i]? = _
    rw [hfb]
    show (qsm.map (fun e => Vertex.Validator e.1))[i]? = _
    rw [List.getElem?_map, List.getElem?_eq_getElem hi]
    have : (qsm.map Prod.fst).getD i "" = qsm[i].1 := by
      rw [List.getD_eq_getElem?_getD, List.getElem?_map,
        List.getElem?_eq_getElem hi]
      rfl
    rw [this]
    rfl
  · intro i hi
    exact Or.inl (initial_neighborsOf qsm i)
  · intro i hi1 hi2
    rw [List.length_map] at hi1
    rw [hnlen] at hi2
    omega
  · intro p hp
    simp at hp

theorem fromQuorumSetMap_good {qsm : List (String × InternalScpQuorumSet)}
    {f : Fbas} (hwf : QsmWF qsm) (hok : fromQuorumSetMap qsm = .ok f) :
    FbasGood (qsm.map Prod.fst) f := by
  have hok2 : secondPass (firstPass qsm emptyFbas []).2 qsm
      { fbas := (firstPass qsm emptyFbas []).1, known_qsets := [] } =
      .ok f := hok
  rw [firstPass_kv] at hok2
  set keys := qsm.map Prod.fst with hkeys
  have hkv : KvGood keys (kvOf keys 0) := kvGood_kvOf keys
  have hnd : keys.Nodup := hwf.1
  have hgetD : ∀ k (hk : k < qsm.length), keys.getD k "" = qsm[k].1 := by
    intro k hk
    rw [hkeys, List.getD_eq_getElem?_getD, List.getElem?_map,
      List.getElem?_eq_getElem hk]
    rfl
  have hklen : keys.length = qsm.length := by
    rw [hkeys]
    simp
  have hempty : ∀ e ∈ qsm, ∃ i, lookupValidator (kvOf keys 0)
      (e : String × InternalScpQuorumSet).1 = some i ∧
      neighborsOf (firstPass qsm emptyFbas []).1 i = [] := by
    intro e he
    obtain ⟨k, hk, hke⟩ := List.getElem_of_mem he
    refine ⟨k, ?_, initial_neighborsOf qsm k⟩
    have := @lookupValidator_kvOf_getD keys 0 k hnd (by omega)
    rw [hgetD k hk] at this
    rw [hke] at this
    simpa using this
  obtain ⟨stf, hstf, hgf, hlenf, hcov⟩ :=
    secondPass_spec keys (kvOf keys 0) hkv qsm
      { fbas := (firstPass qsm emptyFbas []).1, known_qsets := [] } f
      (initial_BuildGood qsm) hempty hnd hok2
  have hgf2 : BuildGood keys stf := hgf
  refine ⟨?_, ?_, ?_, ?_, ?_, ?_⟩
  · rw [← hstf]
    exact hgf2.hlen
  · rw [← hstf]
    exact hgf2.hn
  · rw [← hstf]
    exact hgf2.hvalidators
  · intro i hi
    rw [← hstf]
    exact hgf2.hvnode i hi
  · intro i hi
    refine (hcov i hi).1 ?_
    have hik : i < qsm.length := by omega
    refine ⟨qsm[i], List.getElem_mem hik, ?_⟩
    have := @lookupValidator_kvOf_getD keys 0 i hnd (by omega)
    rw [hgetD i hik] at this
    simpa using this
  · intro i hi1 hi2
    rw [← hstf]
    exact hgf2.hqnode i hi1 (by rw [hstf]; exact hi2)

theorem qsetDepth_pos (q : InternalScpQuorumSet) : 1 ≤ qsetDepth q := by
  cases q with
  | mk t vs inner =>
    rw [qsetDepth]
    omega

mutual

theorem processScpQuorumSet_err (kv : List (String × Nat))
    (q : InternalScpQuorumSet) :
    ∀ (d : Nat) (st : BuildSt), d ≤ QUORUM_SET_MAX_DEPTH →
    ((∃ e, processScpQuorumSet kv q d st = .error e) ↔
      QUORUM_SET_MAX_DEPTH < d + qsetDepth q) ∧
    (∀ e, processScpQuorumSet kv q d st = .error e →
      e = FbasError.QuorumSetTooDeep) := by
  cases q with
  | mk t vs inner =>
    intro d st hd
    rw [qsetDepth]
    by_cases hd4 : d = QUORUM_SET_MAX_DEPTH
    · constructor
      · constructor
        · intro _
          have hQ : QUORUM_SET_MAX_DEPTH = 4 := rfl
          subst hd4
          omega
        · intro _
          refine ⟨.QuorumSetTooDeep, ?_⟩
          rw [processScpQuorumSet, if_pos hd4]
      · intro e he
        rw [processScpQuorumSet, if_pos hd4] at he
        injection he with he
        exact he.symm
    · have hstep : ∀ (r : Except FbasError (List Nat × BuildSt)),
          processInnerSets kv inner (d + 1) st = r →
          processScpQuorumSet kv (.mk t vs inner) d st =
          (match r with
            | .error e => .error e
            | .ok (innerIdxs, st1) =>
              .ok (internQset st1
                { threshold := t
                  validators := mkQsetValidators kv vs
                  inner_qsets := mkQsetInner innerIdxs })) := by
        intro r hr
        rw [processScpQuorumSet, if_neg hd4, hr]
      obtain ⟨hiff, hval⟩ :=
        processInnerSets_err kv inner (d + 1) st (by
          have hQ : QUORUM_SET_MAX_DEPTH = 4 := rfl
          have hd4n : d ≠ 4 := hd4
          omega)
      cases hr : processInnerSets kv inner (d + 1) st with
      | error e =>
        have heq := hstep _ hr
        have hdeep : QUORUM_SET_MAX_DEPTH < (d + 1) + qsetDepthList inner :=
          hiff.mp ⟨e, hr⟩
        constructor
        · constructor
          · intro _
            omega
          · intro _
            exact ⟨e, by rw [heq]⟩
        · intro e2 he2
          rw [heq] at he2
          injection he2 with he2
          subst he2
          exact hval e hr
      | ok p =>
        obtain ⟨innerIdxs, st1⟩ := p
        have heq := hstep _ hr
        have hnotdeep : ¬ QUORUM_SET_MAX_DEPTH < (d + 1) + qsetDepthList inner := by
          intro hc
          obtain ⟨e, he⟩ := hiff.mpr hc
          rw [hr] at he
          exact absurd he (by simp)
        constructor
        · constructor
          · rintro ⟨e, he⟩
            rw [heq] at he
            exact absurd he (by simp)
          · intro hc
            omega
        · intro e he
          rw [heq] at he
          exact absurd he (by simp)

theorem processInnerSets_err (kv : List (String × Nat))
    (qs : List InternalScpQuorumSet) :
    ∀ (d : Nat) (st : BuildSt), d ≤ QUORUM_SET_MAX_DEPTH →
    ((∃ e, processInnerSets kv qs d st = .error e) ↔
      QUORUM_SET_MAX_DEPTH < d + qsetDepthList qs) ∧
    (∀ e, processInnerSets kv qs d st = .error e →
      e = FbasError.QuorumSetTooDeep) := by
  cases qs with
  | nil =>
    intro d st hd
    rw [qsetDepthList]
    constructor
    · constructor
      · rintro ⟨e, he⟩
        rw [processInnerSets] at he
        exact absurd he (by simp)
      · intro hc
        omega
    · intro e he
      rw [processInnerSets] at he
      exact absurd he (by simp)
  | cons q rest =>
    intro d st hd
    rw [qsetDepthList]
    obtain ⟨hiff1, hval1⟩ := processScpQuorumSet_err kv q d st hd
    cases h1 : processScpQuorumSet kv q d st with
    | error e =>
      have hdeep : QUORUM_SET_MAX_DEPTH < d + qsetDepth q := hiff1.mp ⟨e, h1⟩
      constructor
      · constructor
        · intro _
          omega
        · intro _
          refine ⟨e, ?_⟩
          rw [processInnerSets, h1]
      · intro e2 he2
        rw [processInnerSets, h1] at he2
        injection he2 with he2
        subst he2
        exact hval1 e h1
    | ok p =>
      obtain ⟨i, st1⟩ := p
      have hnd1 : ¬ QUORUM_SET_MAX_DEPTH < d + qsetDepth q := by
        intro hc
        obtain ⟨e, he⟩ := hiff1.mpr hc
        rw [h1] at he
        exact absurd he (by simp)
      obtain ⟨hiff2, hval2⟩ := processInnerSets_err kv rest d st1 hd
      have hstep : ∀ (r : Except FbasError (List Nat × BuildSt)),
          processInnerSets kv rest d st1 = r →
          processInnerSets kv (q :: rest) d st =
          (match r with
            | .error e => .error e
            | .ok (is2, stf) => .ok (i :: is2, stf)) := by
        intro r hr
        rw [processInnerSets, h1]
        show (match processInnerSets kv rest d st1 with
          | Except.error e => Except.error e
          | Except.ok (is2, stf) => Except.ok (i :: is2, stf)) = _
        rw [hr]
      cases h2 : processInnerSets kv rest d st1 with
      | error e =>
        have heq := hstep _ h2
        have hdeep2 : QUORUM_SET_MAX_DEPTH < d + qsetDepthList rest :=
          hiff2.mp ⟨e, h2⟩
        constructor
        · constructor
          · intro _
            omega
          · intro _
            exact ⟨e, by rw [heq]⟩
        · intro e2 he2
          rw [heq] at he2
          injection he2 with he2
          subst he2
          exact hval2 e h2
      | ok p2 =>
        obtain ⟨is2, stf⟩ := p2
        have heq := hstep _ h2
        have hnd2 : ¬ QUORUM_SET_MAX_DEPTH < d + qsetDepthList rest := by
          intro hc
          obtain ⟨e, he⟩ := hiff2.mpr hc
          rw [h2] at he
          exact absurd he (by simp)
        constructor
        · constructor
          · rintro ⟨e, he⟩
            rw [heq] at he
            exact absurd he (by simp)
          · intro hc
            omega
        · intro e he
          rw [heq] at he
          exact absurd he (by simp)

end

theorem secondPass_err (kv : List (String × Nat)) :
    ∀ (entries : List (String × InternalScpQuorumSet)) (st : BuildSt),
    (∀ e ∈ entries, ∃ i,
      lookupValidator kv (e : String × InternalScpQuorumSet).1 = some i) →
    ((∃ er, secondPass kv entries st = .error er) ↔
      ∃ p ∈ entries, QUORUM_SET_MAX_DEPTH <
        qsetDepth (p : String × InternalScpQuorumSet).2) ∧
    (∀ er, secondPass kv entries st = .error er →
      er = FbasError.QuorumSetTooDeep) := by
  intro entries
  induction entries with
  | nil =>
    intro st _
    constructor
    · constructor
      · rintro ⟨er, he⟩
        rw [secondPass] at he
        exact absurd he (by simp)
      · rintro ⟨p, hp, _⟩
        simp at hp
    · intro er he
      rw [secondPass] at he
      exact absurd he (by simp)
  | cons e rest ih =>
    intro st hlk
    rcases e with ⟨s, q⟩
    obtain ⟨v_idx, hlv⟩ := hlk (s, q) (List.mem_cons_self _ _)
    have hstep : ∀ (r : Except FbasError (Nat × BuildSt)),
        processScpQuorumSet kv q 0 st = r →
        secondPass kv ((s, q) :: rest) st =
        (match r with
          | .error e2 => .error e2
          | .ok (q_idx, st1) => secondPass kv rest
              { st1 with fbas := addEdge st1.fbas v_idx q_idx }) := by
      intro r hr
      rw [secondPass, hlv]
      show (match processScpQuorumSet kv q 0 st with
        | Except.error e2 => Except.error e2
        | Except.ok (q_idx, st1) => secondPass kv rest
            { st1 with fbas := addEdge st1.fbas v_idx q_idx }) = _
      rw [hr]
    obtain ⟨hiff1, hval1⟩ :=
      processScpQuorumSet_err kv q 0 st (by
        have hQ : QUORUM_SET_MAX_DEPTH = 4 := rfl
        omega)
    cases hp : processScpQuorumSet kv q 0 st with
    | error e2 =>
      have heq := hstep _ hp
      have hdeep : QUORUM_SET_MAX_DEPTH < 0 + qsetDepth q := hiff1.mp ⟨e2, hp⟩
      constructor
      · constructor
        · intro _
          refine ⟨(s, q), List.mem_cons_self _ _, ?_⟩
          have hsq : qsetDepth ((s, q) :
            String × InternalScpQuorumSet).2 = qsetDepth q := rfl
          omega
        · intro _
          exact ⟨e2, by rw [heq]⟩
      · intro er he
        rw [heq] at he
        injection he with he
        subst he
        exact hval1 _ hp
    | ok p =>
      obtain ⟨q_idx, st1⟩ := p
      have heq := hstep _ hp
      have hnd1 : ¬ QUORUM_SET_MAX_DEPTH < 0 + qsetDepth q := by
        intro hc
        obtain ⟨e2, he2⟩ := hiff1.mpr hc
        rw [hp] at he2
        exact absurd he2 (by simp)
      obtain ⟨hiff2, hval2⟩ :=
        ih { st1 with fbas := addEdge st1.fbas v_idx q_idx }
          (fun e2 he2 => hlk e2 (List.mem_cons_of_mem _ he2))
      constructor
      · constructor
        · rintro ⟨er, he⟩
          rw [heq] at he
          obtain ⟨p2, hp2, hd2⟩ := hiff2.mp ⟨er, he⟩
          exact ⟨p2, List.mem_cons_of_mem _ hp2, hd2⟩
        · rintro ⟨p2, hp2, hd2⟩
          rcases List.mem_cons.mp hp2 with rfl | hp3
          · refine absurd ?_ hnd1
            have hsq : qsetDepth ((s, q) :
              String × InternalScpQuorumSet).2 = qsetDepth q := rfl
            omega
          · obtain ⟨er, he⟩ := hiff2.mpr ⟨p2, hp3, hd2⟩
            exact ⟨er, by rw [heq]; exact he⟩
      · intro er he
        rw [heq] at he
        exact hval2 er he

theorem fromQuorumSetMap_lookup (qsm : List (String × InternalScpQuorumSet))
    (hwf : QsmWF qsm) :
    ∀ e ∈ qsm, ∃ i, lookupValidator (kvOf (qsm.map Prod.fst) 0)
      (e : String × InternalScpQuorumSet).1 = some i := by
  intro e he
  obtain ⟨k, hk, hke⟩ := List.getElem_of_mem he
  have hgetD : (qsm.map Prod.fst).getD k "" = qsm[k].1 := by
    rw [List.getD_eq_getElem?_getD, List.getElem?_map,
      List.getElem?_eq_getElem hk]
    rfl
  have := @lookupValidator_kvOf_getD (qsm.map Prod.fst) 0 k hwf.1
    (by simpa using hk)
  rw [hgetD, hke] at this
  exact ⟨0 + k, this⟩

theorem fromQuorumSetMap_err (qsm : List (String × InternalScpQuorumSet))
    (hwf : QsmWF qsm) :
    ((∃ er, fromQuorumSetMap qsm = .error er) ↔
      ∃ p ∈ qsm, QUORUM_SET_MAX_DEPTH <
        qsetDepth (p : String × InternalScpQuorumSet).2) ∧
    (∀ er, fromQuorumSetMap qsm = .error er →
      er = FbasError.QuorumSetTooDeep) := by
  have heq : fromQuorumSetMap qsm = secondPass (kvOf (qsm.map Prod.fst) 0) qsm
      { fbas := (firstPass qsm emptyFbas []).1, known_qsets := [] } := by
    show secondPass (firstPass qsm emptyFbas []).2 qsm
      { fbas := (firstPass qsm emptyFbas []).1, known_qsets := [] } = _
    rw [firstPass_kv]
  rw [heq]
  exact secondPass_err (kvOf (qsm.map Prod.fst) 0) qsm
    { fbas := (firstPass qsm emptyFbas []).1, known_qsets := [] }
    (fromQuorumSetMap_lookup qsm hwf)

/-! ### Encoder structure -/

theorem foldl_addClause_eq {α : Type} (g : α → Clause) :
    ∀ (l : List α) (st : SolverSt),
    l.foldl (fun s e => addClause s (g e)) st =
    { numVars := st.numVars, clauses := st.clauses ++ l.map g } := by
  intro l
  induction l with
  | nil => intro st; simp [addClause]
  | cons a rest ih =>
    intro st
    rw [List.foldl_cons, ih]
    simp [addClause]

theorem xsLits_succ (b m : Nat) :
    xsLits b (m + 1) = { var := b, sign := true } :: xsLits (b + 1) m := by
  unfold xsLits
  rw [List.range_succ_eq_map, List.map_cons, List.map_map]
  congr 1
  refine List.map_congr_left ?_
  intro a _
  show { var := b + (a + 1), sign := true } =
    ({ var := b + 1 + a, sign := true } : Lit)
  congr 1
  omega

theorem sliceFold_eq (aq : Lit) (inq : Nat → Lit) :
    ∀ (cs : List (List Nat)) (st : SolverSt) (acc : List Lit),
    cs.foldl (sliceStep aq inq) (st, acc) =
    ({ numVars := st.numVars + cs.length
       clauses := st.clauses ++ combClauses aq inq st.numVars cs },
     acc ++ xsLits st.numVars cs.length) := by
  intro cs
  induction cs with
  | nil =>
    intro st acc
    simp [combClauses, xsLits]
  | cons c rest ih =>
    intro st acc
    rw [List.foldl_cons]
    have hstep : sliceStep aq inq (st, acc) c =
        ({ numVars := st.numVars + 1
           clauses := st.clauses ++
             (c.map (fun s => [negL aq,
               negL { var := st.numVars, sign := true }, inq s]) ++
             [negL aq :: { var := st.numVars, sign := true } ::
               c.map (fun e => negL (inq e))]) },
         acc ++ [{ var := st.numVars, sign := true }]) := by
      show (addClause (c.foldl (fun s elem =>
          addClause s [negL aq, negL { var := st.numVars, sign := true },
            inq elem]) { st with numVars := st.numVars + 1 })
          (negL aq :: { var := st.numVars, sign := true } ::
            c.map (fun e => negL (inq e))),
        acc ++ [{ var := st.numVars, sign := true }]) = _
      rw [foldl_addClause_eq (fun elem =>
        [negL aq, negL { var := st.numVars, sign := true }, inq elem]) c
        { st with numVars := st.numVars + 1 }]
      simp [addClause]
    rw [hstep, ih]
    rw [combClauses, List.length_cons]
    simp only [Prod.mk.injEq, SolverSt.mk.injEq]
    refine ⟨⟨by omega, ?_⟩, ?_⟩
    · rw [List.append_assoc, List.append_assoc]
    · rw [xsLits_succ, List.append_assoc]
      rfl

theorem doSliceVertex_eq (f : Fbas) (inq : Nat → Lit) (st : SolverSt)
    (ni : Nat) :
    doSliceVertex f inq st ni =
    { numVars := st.numVars + numCombs f ni
      clauses := st.clauses ++ sliceClausesSpec f inq st.numVars ni } := by
  simp only [doSliceVertex]
  rw [sliceFold_eq]
  simp only [sliceClausesSpec, numCombs, addClause]
  rw [List.append_assoc]
  rfl

theorem foldl_doSliceVertex_eq (f : Fbas) (inq : Nat → Lit) :
    ∀ (l : List Nat) (st : SolverSt),
    l.foldl (doSliceVertex f inq) st =
    { numVars := st.numVars + slicePassVars f l
      clauses := st.clauses ++ slicePassSpec f inq st.numVars l } := by
  intro l
  induction l with
  | nil =>
    intro st
    simp [slicePassVars, slicePassSpec]
  | cons ni rest ih =>
    intro st
    rw [List.foldl_cons, doSliceVertex_eq, ih, slicePassVars, slicePassSpec]
    simp only [SolverSt.mk.injEq]
    constructor
    · omega
    · rw [List.append_assoc]

theorem baseVarsSt_eq (f : Fbas) :
    baseVarsSt f = { numVars := 2 * f.nodes.length, clauses := [] } := by
  unfold baseVarsSt
  have hgen : ∀ (l : List Vertex) (s : SolverSt),
      l.foldl (fun s2 _ => { s2 with numVars := s2.numVars + 1 + 1 }) s =
      { numVars := s.numVars + 2 * l.length, clauses := s.clauses } := by
    intro l
    induction l with
    | nil => intro s; simp
    | cons a rest ih =>
      intro s
      rw [List.foldl_cons, ih]
      simp only [SolverSt.mk.injEq, List.length_cons]
      exact ⟨by omega, trivial⟩
  rw [hgen]
  simp

theorem afterNotEmpty_eq (f : Fbas) :
    afterNotEmpty f =
    { numVars := 2 * f.nodes.length
      clauses := [f.validators.map (inQuorumA f.nodes.length),
        f.validators.map (inQuorumB f.nodes.length)] } := by
  unfold afterNotEmpty
  rw [baseVarsSt_eq]
  simp [addClause]

theorem afterDisjoint_eq (f : Fbas) :
    afterDisjoint f =
    { numVars := 2 * f.nodes.length
      clauses := [f.validators.map (inQuorumA f.nodes.length),
        f.validators.map (inQuorumB f.nodes.length)] ++
        f.validators.map (fun ni =>
          [negL (inQuorumA f.nodes.length ni),
           negL (inQuorumB f.nodes.length ni)]) } := by
  unfold afterDisjoint
  rw [foldl_addClause_eq, afterNotEmpty_eq]

theorem afterSliceA_eq (f : Fbas) :
    afterSliceA f =
    { numVars := 2 * f.nodes.length +
        slicePassVars f (List.range f.nodes.length)
      clauses := [f.validators.map (inQuorumA f.nodes.length),
        f.validators.map (inQuorumB f.nodes.length)] ++
        f.validators.map (fun ni =>
          [negL (inQuorumA f.nodes.length ni),
           negL (inQuorumB f.nodes.length ni)]) ++
        slicePassSpec f (inQuorumA f.nodes.length)
          (2 * f.nodes.length) (List.range f.nodes.length) } := by
  unfold afterSliceA
  rw [foldl_doSliceVertex_eq, afterDisjoint_eq]

theorem constructFormula_eq (f : Fbas) :
    constructFormula f =
    { numVars := 2 * f.nodes.length +
        slicePassVars f (List.range f.nodes.length) +
        slicePassVars f (List.range f.nodes.length)
      clauses := [f.validators.map (inQuorumA f.nodes.length),
        f.validators.map (inQuorumB f.nodes.length)] ++
        f.validators.map (fun ni =>
          [negL (inQuorumA f.nodes.length ni),
           negL (inQuorumB f.nodes.length ni)]) ++
        slicePassSpec f (inQuorumA f.nodes.length)
          (2 * f.nodes.length) (List.range f.nodes.length) ++
        slicePassSpec f (inQuorumB f.nodes.length)
          (2 * f.nodes.length + slicePassVars f (List.range f.nodes.length))
          (List.range f.nodes.length) } := by
  unfold constructFormula
  rw [foldl_doSliceVertex_eq, afterSliceA_eq]

theorem slicePassSpec_mem (f : Fbas) (inq : Nat → Lit) :
    ∀ (l : List Nat) (b : Nat) (ni : Nat), ni ∈ l →
    ∃ b2, ∀ c ∈ sliceClausesSpec f inq b2 ni, c ∈ slicePassSpec f inq b l := by
  intro l
  induction l with
  | nil => intro b ni h; simp at h
  | cons x rest ih =>
    intro b ni h
    rcases List.mem_cons.mp h with rfl | h2
    · refine ⟨b, ?_⟩
      intro c hc
      rw [slicePassSpec]
      exact List.mem_append_left _ hc
    · obtain ⟨b2, hb2⟩ := ih (b + numCombs f x) ni h2
      refine ⟨b2, ?_⟩
      intro c hc
      rw [slicePassSpec]
      exact List.mem_append_right _ (hb2 c hc)

theorem constructFormula_mem_notEmptyA (f : Fbas) :
    f.validators.map (inQuorumA f.nodes.length) ∈
    (constructFormula f).clauses := by
  rw [constructFormula_eq]
  simp

theorem constructFormula_mem_notEmptyB (f : Fbas) :
    f.validators.map (inQuorumB f.nodes.length) ∈
    (constructFormula f).clauses := by
  rw [constructFormula_eq]
  simp

theorem constructFormula_mem_disjoint (f : Fbas) {v : Nat}
    (hv : v ∈ f.validators) :
    [negL (inQuorumA f.nodes.length v), negL (inQuorumB f.nodes.length v)] ∈
    (constructFormula f).clauses := by
  rw [constructFormula_eq]
  show _ ∈ ({ numVars := _, clauses := _ } : SolverSt).clauses
  simp only [List.mem_append]
  refine Or.inl (Or.inl (Or.inr ?_))
  exact List.mem_map_of_mem _ hv

theorem constructFormula_mem_sliceA (f : Fbas) {ni : Nat}
    (h : ni < f.nodes.length) :
    ∃ b, ∀ c ∈ sliceClausesSpec f (inQuorumA f.nodes.length) b ni,
      c ∈ (constructFormula f).clauses := by
  obtain ⟨b2, hb2⟩ := slicePassSpec_mem f (inQuorumA f.nodes.length)
    (List.range f.nodes.length) (2 * f.nodes.length) ni
    (List.mem_range.mpr h)
  refine ⟨b2, ?_⟩
  intro c hc
  rw [constructFormula_eq]
  show c ∈ ({ numVars := _, clauses := _ } : SolverSt).clauses
  simp only [List.mem_append]
  exact Or.inl (Or.inr (hb2 c hc))

theorem constructFormula_mem_sliceB (f : Fbas) {ni : Nat}
    (h : ni < f.nodes.length) :
    ∃ b, ∀ c ∈ sliceClausesSpec f (inQuorumB f.nodes.length) b ni,
      c ∈ (constructFormula f).clauses := by
  obtain ⟨b2, hb2⟩ := slicePassSpec_mem f (inQuorumB f.nodes.length)
    (List.range f.nodes.length)
    (2 * f.nodes.length + slicePassVars f (List.range f.nodes.length)) ni
    (List.mem_range.mpr h)
  refine ⟨b2, ?_⟩
  intro c hc
  rw [constructFormula_eq]
  show c ∈ ({ numVars := _, clauses := _ } : SolverSt).clauses
  simp only [List.mem_append]
  exact Or.inr (hb2 c hc)

theorem satLit_pos {m : Nat → Bool} {v : Nat} :
    satLit m { var := v, sign := true } ↔ m v = true := Iff.rfl

theorem satLit_negL_iff {m : Nat → Bool} {l : Lit} :
    satLit m (negL l) ↔ m l.var = !l.sign := Iff.rfl

theorem mem_xsLits {l : Lit} {b m : Nat} :
    l ∈ xsLits b m ↔ ∃ j, j < m ∧ l = { var := b + j, sign := true } := by
  unfold xsLits
  simp only [List.mem_map, List.mem_range]
  constructor
  · rintro ⟨j, hj, rfl⟩
    exact ⟨j, hj, rfl⟩
  · rintro ⟨j, hj, rfl⟩
    exact ⟨j, hj, rfl⟩

theorem combClauses_mem_elem {aq : Lit} {inq : Nat → Lit} :
    ∀ {cs : List (List Nat)} {b j : Nat} (hj : j < cs.length) {s : Nat},
    s ∈ cs[j] →
    [negL aq, negL { var := b + j, sign := true }, inq s] ∈
      combClauses aq inq b cs := by
  intro cs
  induction cs with
  | nil => intro b j hj; simp at hj
  | cons c rest ih =>
    intro b j hj s hs
    match j with
    | 0 =>
      rw [combClauses]
      refine List.mem_append_left _ (List.mem_append_left _ ?_)
      simp only [List.getElem_cons_zero] at hs
      have : (b + 0) = b := rfl
      rw [this]
      exact List.mem_map_of_mem _ hs
    | j + 1 =>
      rw [combClauses]
      refine List.mem_append_right _ ?_
      simp only [List.getElem_cons_succ] at hs
      have hj2 : j < rest.length := by simpa using hj
      have := @ih (b + 1) j hj2 s hs
      have harith : b + 1 + j = b + (j + 1) := by omega
      rw [harith] at this
      exact this

theorem combClauses_mem_comb {aq : Lit} {inq : Nat → Lit} :
    ∀ {cs : List (List Nat)} {b j : Nat} (hj : j < cs.length),
    (negL aq :: { var := b + j, sign := true } ::
      cs[j].map (fun e => negL (inq e))) ∈ combClauses aq inq b cs := by
  intro cs
  induction cs with
  | nil => intro b j hj; simp at hj
  | cons c rest ih =>
    intro b j hj
    match j with
    | 0 =>
      rw [combClauses]
      refine List.mem_append_left _ (List.mem_append_right _ ?_)
      simp
    | j + 1 =>
      rw [combClauses]
      refine List.mem_append_right _ ?_
      have hj2 : j < rest.length := by simpa using hj
      have := ih (j := j) hj2 (b := b + 1)
      have harith : b + 1 + j = b + (j + 1) := by omega
      rw [harith] at this
      simpa using this

theorem slice_extract {f : Fbas} {inq : Nat → Lit} {m : Nat → Bool}
    {ni : Nat}
    (hsat : satFormula m (constructFormula f).clauses)
    (hpos : ∀ k, (inq k).sign = true)
    (hmem : ∃ b, ∀ c ∈ sliceClausesSpec f inq b ni,
      c ∈ (constructFormula f).clauses)
    (htrue : m ((inq ni).var) = true) :
    ∃ c ∈ combinations (vertexThreshold f ni) (neighborsOf f ni),
      ∀ s ∈ c, m ((inq s).var) = true := by
  obtain ⟨b, hb⟩ := hmem
  set cs := combinations (vertexThreshold f ni) (neighborsOf f ni) with hcs
  have hwitness : (negL (inq ni) :: xsLits b cs.length) ∈
      sliceClausesSpec f inq b ni := by
    unfold sliceClausesSpec
    rw [← hcs]
    exact List.mem_append_right _ (List.mem_singleton.mpr rfl)
  have hsatw := hsat _ (hb _ hwitness)
  obtain ⟨l, hl, hsl⟩ := hsatw
  rcases List.mem_cons.mp hl with rfl | hlx
  · rw [satLit_negL_iff, hpos ni, htrue] at hsl
    exact absurd hsl (by simp)
  · obtain ⟨j, hj, rfl⟩ := mem_xsLits.mp hlx
    have hxj : m (b + j) = true := hsl
    refine ⟨cs[j], List.getElem_mem hj, ?_⟩
    intro s hs
    have helem := @combClauses_mem_elem (inq ni) inq cs b j hj s hs
    have hclause : [negL (inq ni), negL { var := b + j, sign := true },
        inq s] ∈ sliceClausesSpec f inq b ni := by
      unfold sliceClausesSpec
      rw [← hcs]
      exact List.mem_append_left _ helem
    obtain ⟨l2, hl2, hsl2⟩ := hsat _ (hb _ hclause)
    rcases List.mem_cons.mp hl2 with rfl | hl2
    · rw [satLit_negL_iff, hpos ni, htrue] at hsl2
      exact absurd hsl2 (by simp)
    rcases List.mem_cons.mp hl2 with rfl | hl2
    · rw [satLit_negL_iff] at hsl2
      simp only at hsl2
      rw [hxj] at hsl2
      exact absurd hsl2 (by simp)
    rcases List.mem_cons.mp hl2 with rfl | hl2
    · unfold satLit at hsl2
      rw [hpos s] at hsl2
      exact hsl2
    · simp at hl2

theorem contains_of_mem {a : Nat} : ∀ {l : List Nat}, a ∈ l →
    l.contains a = true := by
  intro l h
  induction l with
  | nil => simp at h
  | cons x rest ih =>
    rw [List.contains_cons]
    rcases List.mem_cons.mp h with rfl | h2
    · simp
    · rw [ih h2]
      simp

theorem vertexThreshold_eq {f : Fbas} {i : Nat} {v : Vertex}
    (h : f.nodes[i]? = some v) : vertexThreshold f i = v.get_threshold := by
  unfold vertexThreshold
  rw [List.getD_eq_getElem?_getD, h]
  rfl

theorem vertexInQuorum_succ (f : Fbas) (quorum : List Nat) (fuel i : Nat) :
    vertexInQuorum f quorum (fuel + 1) i =
    match f.nodes[i]? with
    | some (Vertex.Validator _) => quorum.contains i
    | some (Vertex.QSet q) =>
      decide (q.threshold ≤
        ((f.succs.getD i []).filter
          (fun j => vertexInQuorum f quorum fuel j)).length)
    | none => false := rfl

theorem mem_combinations_singleton {c : List Nat} {g : Nat}
    (h : c ∈ combinations 1 [g]) : c = [g] := by
  unfold combinations at h
  obtain ⟨hsub, hlen⟩ := List.mem_sublistsLen.mp h
  obtain ⟨a, rfl⟩ := List.length_eq_one.mp hlen
  have : a ∈ [g] := hsub.subset (List.mem_cons_self a [])
  rw [List.mem_singleton.mp this]

/-- The per-pass fuel induction: a qset vertex whose membership literal is
true in a satisfying model is recursively satisfied by the lifted validator
set. -/
theorem pass_quorum_ind {keys : List String} {f : Fbas} {inq : Nat → Lit}
    {m : Nat → Bool}
    (hg : FbasGood keys f)
    (hsat : satFormula m (constructFormula f).clauses)
    (hpos : ∀ k, (inq k).sign = true)
    (hmem : ∀ ni, ni < f.nodes.length →
      ∃ b, ∀ c ∈ sliceClausesSpec f inq b ni,
        c ∈ (constructFormula f).clauses) :
    ∀ (fuel i : Nat), keys.length ≤ i → i < f.nodes.length →
    m ((inq i).var) = true → i < fuel →
    vertexInQuorum f
      (f.validators.filter (fun v => m ((inq v).var))) fuel i = true := by
  set qf := f.validators.filter (fun v => m ((inq v).var)) with hqf
  intro fuel
  induction fuel with
  | zero => intro i _ _ _ h; omega
  | succ fuel ih =>
    intro i hnv hiN htrue hif
    obtain ⟨q, hq1, hq2, hq3, hq4, _, _⟩ := hg.hqnode i hnv hiN
    rw [vertexInQuorum_succ, hq1]
    obtain ⟨c, hcmem, hcall⟩ := slice_extract hsat hpos (hmem i hiN) htrue
    unfold combinations at hcmem
    obtain ⟨hsub, hlen⟩ := List.mem_sublistsLen.mp hcmem
    rw [vertexThreshold_eq hq1] at hlen
    have hthr : Vertex.get_threshold (Vertex.QSet q) = q.threshold := rfl
    rw [hthr] at hlen
    have hcall2 : ∀ e ∈ c, vertexInQuorum f qf fuel e = true := by
      intro e he
      have hens : e ∈ neighborsOf f i := hsub.subset he
      rw [hq2] at hens
      rcases List.mem_append.mp hens with h | h
      · have hev : e < keys.length := hq3 e h
        have hs : f.nodes[e]? = some (Vertex.Validator (keys.getD e "")) :=
          hg.hvnode e hev
        obtain ⟨fuel2, rfl⟩ : ∃ fuel2, fuel = fuel2 + 1 :=
          ⟨fuel - 1, by omega⟩
        rw [vertexInQuorum_succ, hs]
        refine contains_of_mem (List.mem_filter.mpr ⟨?_, hcall e he⟩)
        rw [hg.hvalidators]
        exact List.mem_range.mpr hev
      · have he2 := hq4 e h
        exact ih e he2.1 (by omega) (hcall e he) (by omega)
    rw [decide_eq_true_iff]
    have hceq : c.filter (fun j => vertexInQuorum f qf fuel j) = c :=
      List.filter_eq_self.mpr hcall2
    have hsubf := hsub.filter (fun j => vertexInQuorum f qf fuel j)
    rw [hceq] at hsubf
    calc q.threshold = c.length := hlen.symm
      _ ≤ _ := hsubf.length_le

/-- Per pass (A or B): every validator whose membership literal is true in
the model has its slice condition recursively satisfied by the lifted
validator set. -/
theorem pass_isQuorum {keys : List String} {f : Fbas} {inq : Nat → Lit}
    {m : Nat → Bool}
    (hg : FbasGood keys f)
    (hsat : satFormula m (constructFormula f).clauses)
    (hpos : ∀ k, (inq k).sign = true)
    (hmem : ∀ ni, ni < f.nodes.length →
      ∃ b, ∀ c ∈ sliceClausesSpec f inq b ni,
        c ∈ (constructFormula f).clauses) :
    ∀ v ∈ f.validators.filter (fun x => m ((inq x).var)),
      vertexThreshold f v ≤
        ((f.succs.getD v []).filter
          (fun j => vertexInQuorum f
            (f.validators.filter (fun x => m ((inq x).var)))
            f.nodes.length j)).length := by
  intro v hv
  obtain ⟨hvmem, hvtrue⟩ := List.mem_filter.mp hv
  have hvlt : v < keys.length := by
    rw [hg.hvalidators] at hvmem
    exact List.mem_range.mp hvmem
  have hvN : v < f.nodes.length := Nat.lt_of_lt_of_le hvlt hg.hn
  have hvnode := hg.hvnode v hvlt
  have hthr : vertexThreshold f v = 1 := vertexThreshold_eq hvnode
  obtain ⟨g, hgs, hg1, hg2⟩ := hg.hvsucc v hvlt
  obtain ⟨c, hcmem, hcall⟩ := slice_extract hsat hpos (hmem v hvN) hvtrue
  rw [hthr, hgs] at hcmem
  have hceq : c = [g] := mem_combinations_singleton hcmem
  subst hceq
  have hgtrue : m ((inq g).var) = true := hcall g (List.mem_cons_self _ _)
  have hgq : vertexInQuorum f
      (f.validators.filter (fun x => m ((inq x).var)))
      f.nodes.length g = true :=
    pass_quorum_ind hg hsat hpos hmem f.nodes.length g hg1 hg2 hgtrue hg2
  have hnbr : f.succs.getD v [] = [g] := hgs
  rw [hthr, hnbr, List.filter_cons, if_pos (by exact hgq)]
  simp

/-- Soundness of the encoded formula: any model satisfying every clause of
`construct_formula` lifts to two non-empty, disjoint quorums. -/
theorem formula_soundness {keys : List String} {f : Fbas} {m : Nat → Bool}
    (hg : FbasGood keys f)
    (hsat : satFormula m (constructFormula f).clauses) :
    (liftModel f m).1 ≠ [] ∧ (liftModel f m).2 ≠ [] ∧
    (∀ v ∈ (liftModel f m).1, v ∉ (liftModel f m).2) ∧
    isQuorum f (liftModel f m).1 ∧ isQuorum f (liftModel f m).2 := by
  have hposA : ∀ k, (inQuorumA f.nodes.length k).sign = true := fun _ => rfl
  have hposB : ∀ k, (inQuorumB f.nodes.length k).sign = true := fun _ => rfl
  have hmemA := fun ni hni => @constructFormula_mem_sliceA f ni hni
  have hmemB := fun ni hni => @constructFormula_mem_sliceB f ni hni
  have hqa : (liftModel f m).1 =
      f.validators.filter (fun x => m ((inQuorumA f.nodes.length x).var)) := rfl
  have hqb : (liftModel f m).2 =
      f.validators.filter (fun x => m ((inQuorumB f.nodes.length x).var)) := rfl
  have hneA : (liftModel f m).1 ≠ [] := by
    obtain ⟨l, hl, hsl⟩ := hsat _ (constructFormula_mem_notEmptyA f)
    obtain ⟨v, hvmem, rfl⟩ := List.mem_map.mp hl
    have hvt : m ((inQuorumA f.nodes.length v).var) = true := hsl
    rw [hqa]
    exact List.ne_nil_of_mem (List.mem_filter.mpr ⟨hvmem, hvt⟩)
  have hneB : (liftModel f m).2 ≠ [] := by
    obtain ⟨l, hl, hsl⟩ := hsat _ (constructFormula_mem_notEmptyB f)
    obtain ⟨v, hvmem, rfl⟩ := List.mem_map.mp hl
    have hvt : m ((inQuorumB f.nodes.length v).var) = true := hsl
    rw [hqb]
    exact List.ne_nil_of_mem (List.mem_filter.mpr ⟨hvmem, hvt⟩)
  refine ⟨hneA, hneB, ?_, ?_, ?_⟩
  · intro v hva hvb
    rw [hqa] at hva
    rw [hqb] at hvb
    obtain ⟨hvmem, hvta⟩ := List.mem_filter.mp hva
    obtain ⟨_, hvtb⟩ := List.mem_filter.mp hvb
    obtain ⟨l, hl, hsl⟩ := hsat _ (constructFormula_mem_disjoint f hvmem)
    rcases List.mem_cons.mp hl with rfl | hl2
    · have hfalse : m ((inQuorumA f.nodes.length v).var) = false := hsl
      rw [hvta] at hfalse
      exact absurd hfalse (by simp)
    rcases List.mem_cons.mp hl2 with rfl | hl3
    · have hfalse : m ((inQuorumB f.nodes.length v).var) = false := hsl
      rw [hvtb] at hfalse
      exact absurd hfalse (by simp)
    · simp at hl3
  · refine ⟨hneA, ?_⟩
    intro v hv
    rw [hqa] at hv ⊢
    exact pass_isQuorum hg hsat hposA hmemA v hv
  · refine ⟨hneB, ?_⟩
    intro v hv
    rw [hqb] at hv ⊢
    exact pass_isQuorum hg hsat hposB hmemB v hv

/-! ### QuorumSetMap insertion semantics -/

theorem mapLookupISQ_btreeMapInsert (k : String) (v : InternalScpQuorumSet) :
    ∀ (m : List (String × InternalScpQuorumSet)) (k2 : String),
    mapLookupISQ (btreeMapInsert k v m) k2 =
    if k2 = k then some v else mapLookupISQ m k2 := by
  intro m
  induction m with
  | nil =>
    intro k2
    by_cases h : k2 = k
    · subst h
      simp [btreeMapInsert, mapLookupISQ]
    · have hn : ¬ (k = k2) := fun hc => h hc.symm
      simp [btreeMapInsert, mapLookupISQ, h, hn]
  | cons p rest ih =>
    intro k2
    rcases p with ⟨k0, v0⟩
    by_cases h1 : keyLt k.data k0.data = true
    · by_cases h : k2 = k
      · subst h
        simp [btreeMapInsert, mapLookupISQ, h1]
      · have hn : ¬ (k = k2) := fun hc => h hc.symm
        simp [btreeMapInsert, mapLookupISQ, h1, h, hn]
    · by_cases h2 : k = k0
      · subst h2
        by_cases h : k2 = k
        · subst h
          simp [btreeMapInsert, mapLookupISQ, h1]
        · have hn : ¬ (k = k2) := fun hc => h hc.symm
          simp [btreeMapInsert, mapLookupISQ, h1, h, hn]
      · by_cases h : k2 = k
        · subst h
          have hn0 : ¬ (k0 = k2) := fun hc => h2 hc.symm
          simp [btreeMapInsert, mapLookupISQ, h1, h2, hn0, ih]
        · by_cases h3 : k0 = k2
          · subst h3
            have hn : ¬ (k0 = k) := fun hc => h2 hc.symm
            simp [btreeMapInsert, mapLookupISQ, h1, h2, h, hn]
          · have hn : ¬ (k = k2) := fun hc => h hc.symm
            simp [btreeMapInsert, mapLookupISQ, h1, h2, h, hn, h3, ih]

theorem buildQuorumSetMap_fold_lookup (k : String) :
    ∀ (entries : List (String × Option InternalScpQuorumSet))
      (m : List (String × InternalScpQuorumSet)),
    mapLookupISQ (entries.foldl (fun m2 e =>
      match e.2 with
      | some q => btreeMapInsert e.1 q m2
      | none => m2) m) k =
    entries.foldl (fun acc e =>
      if e.1 = k then match e.2 with | some q => some q | none => acc
      else acc) (mapLookupISQ m k) := by
  intro entries
  induction entries with
  | nil => intro m; rfl
  | cons e rest ih =>
    intro m
    rcases e with ⟨ke, oq⟩
    rw [List.foldl_cons, List.foldl_cons]
    cases oq with
    | none =>
      show mapLookupISQ (rest.foldl _ m) k = rest.foldl _
        (if ke = k then mapLookupISQ m k else mapLookupISQ m k)
      rw [ih, ite_self]
    | some q =>
      show mapLookupISQ (rest.foldl _ (btreeMapInsert ke q m)) k =
        rest.foldl _ (if ke = k then some q else mapLookupISQ m k)
      rw [ih, mapLookupISQ_btreeMapInsert]
      by_cases h : ke = k
      · rw [if_pos h.symm, if_pos h]
      · rw [if_neg (fun hc => h hc.symm), if_neg h]

theorem buildQuorumSetMap_lookup
    (entries : List (String × Option InternalScpQuorumSet)) (k : String) :
    mapLookupISQ (buildQuorumSetMap entries) k = lastQsetFor entries k := by
  unfold buildQuorumSetMap lastQsetFor
  rw [buildQuorumSetMap_fold_lookup]
  rfl

/-! ### Variable layout bounds -/

theorem combClauses_lit_origin {aq : Lit} {inq : Nat → Lit} :
    ∀ {cs : List (List Nat)} {b : Nat}, ∀ c ∈ combClauses aq inq b cs,
    ∀ l ∈ c,
    l = negL aq ∨
    (∃ s, (∃ c0 ∈ cs, s ∈ c0) ∧ (l = inq s ∨ l = negL (inq s))) ∨
    (b ≤ l.var ∧ l.var < b + cs.length) := by
  intro cs
  induction cs with
  | nil => intro b c hc; simp [combClauses] at hc
  | cons c0 rest ih =>
    intro b c hc l hl
    rw [combClauses] at hc
    rcases List.mem_append.mp hc with hc1 | hc2
    · rcases List.mem_append.mp hc1 with hc3 | hc4
      · obtain ⟨s, hs, rfl⟩ := List.mem_map.mp hc3
        rcases List.mem_cons.mp hl with rfl | hl2
        · exact Or.inl rfl
        rcases List.mem_cons.mp hl2 with rfl | hl3
        · refine Or.inr (Or.inr ⟨Nat.le_refl _, ?_⟩)
          show b < b + (rest.length + 1)
          omega
        rcases List.mem_cons.mp hl3 with rfl | hl4
        · exact Or.inr (Or.inl ⟨s,
            ⟨c0, List.mem_cons_self _ _, hs⟩, Or.inl rfl⟩)
        · simp at hl4
      · rw [List.mem_singleton.mp hc4] at hl
        rcases List.mem_cons.mp hl with rfl | hl2
        · exact Or.inl rfl
        rcases List.mem_cons.mp hl2 with rfl | hl3
        · refine Or.inr (Or.inr ⟨Nat.le_refl _, ?_⟩)
          show b < b + (rest.length + 1)
          omega
        · obtain ⟨s, hs, rfl⟩ := List.mem_map.mp hl3
          exact Or.inr (Or.inl ⟨s,
            ⟨c0, List.mem_cons_self _ _, hs⟩, Or.inr rfl⟩)
    · rcases ih c hc2 l hl with h | ⟨s, ⟨c1, hc1, hs⟩, ho⟩ | ⟨hb1, hb2⟩
      · exact Or.inl h
      · exact Or.inr (Or.inl ⟨s, ⟨c1, List.mem_cons_of_mem _ hc1, hs⟩, ho⟩)
      · refine Or.inr (Or.inr ⟨by omega, ?_⟩)
        rw [List.length_cons]
        omega

theorem sliceClausesSpec_lit_origin {f : Fbas} {inq : Nat → Lit}
    {b ni : Nat} : ∀ c ∈ sliceClausesSpec f inq b ni, ∀ l ∈ c,
    (l = inq ni ∨ l = negL (inq ni)) ∨
    (∃ s ∈ neighborsOf f ni, l = inq s ∨ l = negL (inq s)) ∨
    (b ≤ l.var ∧ l.var < b + numCombs f ni) := by
  intro c hc l hl
  unfold sliceClausesSpec at hc
  rcases List.mem_append.mp hc with hc1 | hc2
  · rcases combClauses_lit_origin c hc1 l hl with h | ⟨s, ⟨c0, hc0, hs⟩, ho⟩ |
      ⟨hb1, hb2⟩
    · exact Or.inl (Or.inr h)
    · refine Or.inr (Or.inl ⟨s, ?_, ho⟩)
      unfold combinations at hc0
      exact (List.mem_sublistsLen.mp hc0).1.subset hs
    · exact Or.inr (Or.inr ⟨hb1, hb2⟩)
  · rw [List.mem_singleton.mp hc2] at hl
    rcases List.mem_cons.mp hl with rfl | hl2
    · exact Or.inl (Or.inr rfl)
    · obtain ⟨j, hj, rfl⟩ := mem_xsLits.mp hl2
      have hvar : ({ var := b + j, sign := true } : Lit).var = b + j := rfl
      have hnum : numCombs f ni =
        (combinations (vertexThreshold f ni) (neighborsOf f ni)).length := rfl
      exact Or.inr (Or.inr ⟨by omega, by omega⟩)

theorem slicePass_lit_origin {f : Fbas} {inq : Nat → Lit} :
    ∀ (vl : List Nat) (b : Nat), ∀ c ∈ slicePassSpec f inq b vl, ∀ l ∈ c,
    (∃ k, (k ∈ vl ∨ ∃ ni ∈ vl, k ∈ neighborsOf f ni) ∧
      (l = inq k ∨ l = negL (inq k))) ∨
    (b ≤ l.var ∧ l.var < b + slicePassVars f vl) := by
  intro vl
  induction vl with
  | nil => intro b c hc; simp [slicePassSpec] at hc
  | cons ni rest ih =>
    intro b c hc l hl
    rw [slicePassSpec] at hc
    rcases List.mem_append.mp hc with hc1 | hc2
    · rcases sliceClausesSpec_lit_origin c hc1 l hl with h | ⟨s, hs, ho⟩ |
        ⟨hb1, hb2⟩
      · exact Or.inl ⟨ni, Or.inl (List.mem_cons_self _ _), h⟩
      · exact Or.inl ⟨s, Or.inr ⟨ni, List.mem_cons_self _ _, hs⟩, ho⟩
      · refine Or.inr ⟨hb1, ?_⟩
        rw [slicePassVars]
        omega
    · rcases ih (b + numCombs f ni) c hc2 l hl with ⟨k, hk, ho⟩ | ⟨hb1, hb2⟩
      · refine Or.inl ⟨k, ?_, ho⟩
        rcases hk with hk1 | ⟨ni2, hni2, hk2⟩
        · exact Or.inl (List.mem_cons_of_mem _ hk1)
        · exact Or.inr ⟨ni2, List.mem_cons_of_mem _ hni2, hk2⟩
      · refine Or.inr ⟨by omega, ?_⟩
        rw [slicePassVars]
        omega

theorem fbasGood_succ_bound {keys : List String} {f : Fbas}
    (hg : FbasGood keys f) :
    ∀ ni, ∀ s ∈ neighborsOf f ni, s < f.nodes.length := by
  intro ni s hs
  rcases Nat.lt_or_ge ni keys.length with h1 | h1
  · obtain ⟨g, hgs, _, hg2⟩ := hg.hvsucc ni h1
    rw [hgs, List.mem_singleton] at hs
    omega
  · rcases Nat.lt_or_ge ni f.nodes.length with h2 | h2
    · obtain ⟨q, _, hq2, hq3, hq4, _, _⟩ := hg.hqnode ni h1 h2
      rw [hq2] at hs
      rcases List.mem_append.mp hs with h | h
      · have := hq3 s h
        omega
      · have := (hq4 s h).2
        omega
    · rw [neighborsOf_out (by rw [hg.hlen]; exact h2)] at hs
      simp at hs

/-! ## Claim theorems -/

/-- C1: Lifting soundness.  Whenever `solve` returns `Sat` with a pair of
validator-index lists `(quorum_a, quorum_b)` for a graph built from a
`QuorumSetMap`, and the model handed back by the solver satisfies every
clause of the encoded formula, the two lists are disjoint, both are
non-empty, and each is a quorum of the original FBAS: every member's vertex
has at least its threshold of graph successors in the quorum, recursively
through qset vertices. -/
theorem c1_lifting_soundness {qsm : List (String × InternalScpQuorumSet)}
    {f : Fbas} {m : Nat → Bool} {qa qb : List Nat}
    (hwf : QsmWF qsm) (hok : fromQuorumSetMap qsm = .ok f)
    (hsat : satFormula m (constructFormula f).clauses)
    (hsolve : solve f (SolverResult.Sat m) = SolveStatus.SAT (qa, qb)) :
    qa ≠ [] ∧ qb ≠ [] ∧ (∀ v ∈ qa, v ∉ qb) ∧
    isQuorum f qa ∧ isQuorum f qb := by
  have hg := fromQuorumSetMap_good hwf hok
  have hlift : SolveStatus.SAT (liftModel f m) = SolveStatus.SAT (qa, qb) :=
    hsolve
  injection hlift with hlift
  obtain ⟨h1, h2, h3, h4, h5⟩ := formula_soundness hg hsat
  rw [show qa = (liftModel f m).1 from (congrArg Prod.fst hlift).symm,
    show qb = (liftModel f m).2 from (congrArg Prod.snd hlift).symm]
  exact ⟨h1, h2, h3, h4, h5⟩

/-- Witness for C1: the two-validator fixture, its satisfying model, and
the lifted split `([0], [1])`. -/
theorem c1_lifting_soundness_witness :
    ([0] : List Nat) ≠ [] ∧ ([1] : List Nat) ≠ [] ∧
    (∀ v ∈ ([0] : List Nat), v ∉ ([1] : List Nat)) ∧
    isQuorum fbW [0] ∧ isQuorum fbW [1] :=
  @c1_lifting_soundness qsmW fbW sigmaW [0] [1]
    (by decide) (by decide) (by decide) (by decide)

/-- C5: Depth bound.  For a well-formed `QuorumSetMap`, building the `Fbas`
fails with the `QuorumSetTooDeep` error if and only if some quorum set in
the map has nesting depth exceeding `QUORUM_SET_MAX_DEPTH = 4` levels, and
every input whose nesting stays within 4 levels builds successfully. -/
theorem c5_depth_bound {qsm : List (String × InternalScpQuorumSet)}
    (hwf : QsmWF qsm) :
    (fromQuorumSetMap qsm = .error FbasError.QuorumSetTooDeep ↔
      ∃ p ∈ qsm, QUORUM_SET_MAX_DEPTH <
        qsetDepth (p : String × InternalScpQuorumSet).2) ∧
    ((¬ ∃ p ∈ qsm, QUORUM_SET_MAX_DEPTH <
        qsetDepth (p : String × InternalScpQuorumSet).2) →
      ∃ f, fromQuorumSetMap qsm = .ok f) := by
  obtain ⟨hiff, hval⟩ := fromQuorumSetMap_err qsm hwf
  constructor
  · constructor
    · intro h
      exact hiff.mp ⟨_, h⟩
    · intro hdeep
      obtain ⟨er, her⟩ := hiff.mpr hdeep
      rw [← hval er her]
      exact her
  · intro hnot
    cases hres : fromQuorumSetMap qsm with
    | ok f => exact ⟨f, rfl⟩
    | error er => exact absurd (hiff.mp ⟨er, hres⟩) hnot

/-- Witness for C5: a quorum set nested five levels deep is rejected and
its four-level prefix builds. -/
theorem c5_depth_bound_witness :
    (fromQuorumSetMap [("a", chainQset 4)] =
        .error FbasError.QuorumSetTooDeep ↔
      ∃ p ∈ [("a", chainQset 4)], QUORUM_SET_MAX_DEPTH <
        qsetDepth (p : String × InternalScpQuorumSet).2) ∧
    ((¬ ∃ p ∈ [("a", chainQset 4)], QUORUM_SET_MAX_DEPTH <
        qsetDepth (p : String × InternalScpQuorumSet).2) →
      ∃ f, fromQuorumSetMap [("a", chainQset 4)] = .ok f) :=
  @c5_depth_bound [("a", chainQset 4)] (by decide)

/-- C6 counterexample: the same validator id occurs twice as a top-level
entry, yet construction succeeds — there is no `DuplicateValidator` error;
the second binding silently replaces the first. -/
theorem c6_duplicate_counterexample :
    fromQuorumSetMapBuf
      [("a", some (.mk 1 ["a"] [])), ("a", some (.mk 1 [] []))] =
    .ok { nodes := [Vertex.Validator "a",
          Vertex.QSet { threshold := 1, validators := [], inner_qsets := [] }],
          succs := [[1], []],
          validators := [0] } ∧
    buildQuorumSetMap
      [("a", some (.mk 1 ["a"] [])), ("a", some (.mk 1 [] []))] =
    [("a", .mk 1 [] [])] := by
  exact ⟨by decide, by decide⟩

/-- C6 amended: duplicate top-level keys are not an input error.  The map
construction keeps, for every key, the quorum set of the last entry with a
non-empty buffer (`BTreeMap::insert` overwrite semantics), and
`from_quorum_set_map_buf` simply builds the graph from that map. -/
theorem c6_duplicate_amended :
    (∀ (entries : List (String × Option InternalScpQuorumSet)) (k : String),
      mapLookupISQ (buildQuorumSetMap entries) k = lastQsetFor entries k) ∧
    (∀ (entries : List (String × Option InternalScpQuorumSet)),
      fromQuorumSetMapBuf entries =
        fromQuorumSetMap (buildQuorumSetMap entries)) :=
  ⟨buildQuorumSetMap_lookup, fun _ => rfl⟩

/-- C7 counterexample to invariant I3 as stated: dropping the unknown
inner validator `zz` leaves the qset vertex of `fbT` with threshold 2 but
out-degree 1, so `threshold ≤ out_degree` fails on a successfully built
graph. -/
theorem c7_threshold_counterexample :
    QsmWF qsmT ∧
    fromQuorumSetMap qsmT = .ok fbT ∧
    fbT.nodes[1]? = some (Vertex.QSet
      { threshold := 2, validators := [0], inner_qsets := [] }) ∧
    (fbT.succs.getD 1 []).length = 1 ∧
    ¬ ((Vertex.QSet
        { threshold := 2, validators := [0], inner_qsets := [] }).get_threshold
      ≤ (fbT.succs.getD 1 []).length) := by
  exact ⟨by decide, by decide, by decide, by decide, by decide⟩

/-- C7 amended: in every successfully built `Fbas`, every Validator vertex
has threshold 1 and exactly one successor; the `threshold ≤ out_degree`
half of I3 does not hold for QSet vertices (see the counterexample). -/
theorem c7_validator_invariant {qsm : List (String × InternalScpQuorumSet)}
    {f : Fbas} (hwf : QsmWF qsm) (hok : fromQuorumSetMap qsm = .ok f) :
    ∀ i ∈ f.validators, ∃ s, f.nodes[i]? = some (Vertex.Validator s) ∧
      (Vertex.Validator s).get_threshold = 1 ∧
      ∃ j, f.succs.getD i [] = [j] := by
  have hg := fromQuorumSetMap_good hwf hok
  intro i hi
  rw [hg.hvalidators] at hi
  have hilt : i < (qsm.map Prod.fst).length := List.mem_range.mp hi
  obtain ⟨j, hj, _, _⟩ := hg.hvsucc i hilt
  exact ⟨(qsm.map Prod.fst).getD i "", hg.hvnode i hilt, rfl, j, hj⟩

/-- Witness for C7 amended: validator 0 of the fixture has threshold 1
and a single successor. -/
theorem c7_validator_invariant_witness :
    ∃ s, fbW.nodes[0]? = some (Vertex.Validator s) ∧
      (Vertex.Validator s).get_threshold = 1 ∧
      ∃ j, fbW.succs.getD 0 [] = [j] :=
  @c7_validator_invariant qsmW fbW (by decide) (by decide) 0 (by decide)

/-- C9: Determinism of construction.  Building twice from equal input
yields the same graph (construction is a function of the map), the
validator vertices are exactly the first `qsm.length` node indices, and
validator `i` carries the `i`-th key in the map's (sorted) iteration
order. -/
theorem c9_determinism {qsm : List (String × InternalScpQuorumSet)}
    {f : Fbas} (hwf : QsmWF qsm) (hok : fromQuorumSetMap qsm = .ok f) :
    (∀ f2, fromQuorumSetMap qsm = .ok f2 → f2 = f) ∧
    f.validators = List.range qsm.length ∧
    (∀ i, i < qsm.length → f.nodes[i]? =
      some (Vertex.Validator ((qsm.map Prod.fst).getD i ""))) := by
  have hg := fromQuorumSetMap_good hwf hok
  refine ⟨?_, ?_, ?_⟩
  · intro f2 h2
    rw [hok] at h2
    injection h2 with h2
    exact h2.symm
  · have := hg.hvalidators
    rw [List.length_map] at this
    exact this
  · intro i hi
    exact hg.hvnode i (by rw [List.length_map]; exact hi)

/-- Witness for C9 at the two-validator fixture. -/
theorem c9_determinism_witness :
    (∀ f2, fromQuorumSetMap qsmW = .ok f2 → f2 = fbW) ∧
    fbW.validators = List.range qsmW.length ∧
    (∀ i, i < qsmW.length → fbW.nodes[i]? =
      some (Vertex.Validator ((qsmW.map Prod.fst).getD i ""))) :=
  @c9_determinism qsmW fbW (by decide) (by decide)

theorem fbasGood_succ_nodup {keys : List String} {f : Fbas}
    (hg : FbasGood keys f) : ∀ ni, (neighborsOf f ni).Nodup := by
  intro ni
  rcases Nat.lt_or_ge ni keys.length with h1 | h1
  · obtain ⟨g, hgs, _, _⟩ := hg.hvsucc ni h1
    rw [hgs]
    simp
  · rcases Nat.lt_or_ge ni f.nodes.length with h2 | h2
    · obtain ⟨q, _, hq2, hq3, hq4, hq5, hq6⟩ := hg.hqnode ni h1 h2
      rw [hq2]
      refine List.Nodup.append (nodup_of_chain'_lt hq5)
        (nodup_of_chain'_lt hq6) ?_
      intro a ha hb
      have := hq3 a ha
      have := (hq4 a hb).1
      omega
    · rw [neighborsOf_out (by rw [hg.hlen]; exact h2)]
      simp

/-- C2: Slice-constraint encoding.  For every vertex of a built graph,
the encoder enumerates exactly the `C(d, t)` size-`t` subsets of the
vertex's successor list (all of them, each exactly once), and emits — for
each subset with its fresh Tseitin variable — the per-member clauses
`(¬Q(v) ∨ ¬x_j ∨ Q(s))`, the clause `(¬Q(v) ∨ x_j ∨ ¬Q(s_1) ∨ … ∨ ¬Q(s_t))`,
and finally the single witness-exists clause
`(¬Q(v) ∨ x_1 ∨ … ∨ x_m)` — and nothing else (`sliceClausesSpec` is
exactly that clause list, and the encoder's output equals it). -/
theorem c2_slice_encoding {qsm : List (String × InternalScpQuorumSet)}
    {f : Fbas} (hwf : QsmWF qsm) (hok : fromQuorumSetMap qsm = .ok f)
    {ni : Nat} (hni : ni < f.nodes.length) :
    (∀ (inq : Nat → Lit) (st : SolverSt),
      doSliceVertex f inq st ni =
      { numVars := st.numVars +
          (combinations (vertexThreshold f ni) (neighborsOf f ni)).length
        clauses := st.clauses ++ sliceClausesSpec f inq st.numVars ni }) ∧
    (combinations (vertexThreshold f ni) (neighborsOf f ni)).length =
      Nat.choose (neighborsOf f ni).length (vertexThreshold f ni) ∧
    (∀ c, c ∈ combinations (vertexThreshold f ni) (neighborsOf f ni) ↔
      (c.Sublist (neighborsOf f ni) ∧ c.length = vertexThreshold f ni)) ∧
    (combinations (vertexThreshold f ni) (neighborsOf f ni)).Nodup := by
  have hg := fromQuorumSetMap_good hwf hok
  refine ⟨?_, ?_, ?_, ?_⟩
  · intro inq st
    exact doSliceVertex_eq f inq st ni
  · exact List.length_sublistsLen _ _
  · intro c
    exact List.mem_sublistsLen
  · exact List.nodup_sublistsLen _ (fbasGood_succ_nodup hg ni)

/-- Witness for C2 at the qset vertex of the fixture. -/
theorem c2_slice_encoding_witness :
    (∀ (inq : Nat → Lit) (st : SolverSt),
      doSliceVertex fbW inq st 2 =
      { numVars := st.numVars +
          (combinations (vertexThreshold fbW 2) (neighborsOf fbW 2)).length
        clauses := st.clauses ++ sliceClausesSpec fbW inq st.numVars 2 }) ∧
    (combinations (vertexThreshold fbW 2) (neighborsOf fbW 2)).length =
      Nat.choose (neighborsOf fbW 2).length (vertexThreshold fbW 2) ∧
    (∀ c, c ∈ combinations (vertexThreshold fbW 2) (neighborsOf fbW 2) ↔
      (c.Sublist (neighborsOf fbW 2) ∧ c.length = vertexThreshold fbW 2)) ∧
    (combinations (vertexThreshold fbW 2) (neighborsOf fbW 2)).Nodup :=
  @c2_slice_encoding qsmW fbW (by decide) (by decide) 2 (by decide)

/-- C3: Non-emptiness and disjointness clauses range over validator
vertices only: the emitted clause list is exactly — one disjunction of the
A-literals of the validator vertices, one disjunction of their B-literals,
one `(¬A(v) ∨ ¬B(v))` clause per validator vertex, and then the two slice
passes; the validator vertices are exactly the node indices below
`qsm.length`, so qset vertices get no such clauses. -/
theorem c3_base_clauses {qsm : List (String × InternalScpQuorumSet)}
    {f : Fbas} (hwf : QsmWF qsm) (hok : fromQuorumSetMap qsm = .ok f) :
    (constructFormula f).clauses =
      [f.validators.map (inQuorumA f.nodes.length),
       f.validators.map (inQuorumB f.nodes.length)] ++
      f.validators.map (fun ni =>
        [negL (inQuorumA f.nodes.length ni),
         negL (inQuorumB f.nodes.length ni)]) ++
      slicePassSpec f (inQuorumA f.nodes.length)
        (2 * f.nodes.length) (List.range f.nodes.length) ++
      slicePassSpec f (inQuorumB f.nodes.length)
        (2 * f.nodes.length + slicePassVars f (List.range f.nodes.length))
        (List.range f.nodes.length) ∧
    f.validators = List.range qsm.length := by
  have hg := fromQuorumSetMap_good hwf hok
  constructor
  · rw [constructFormula_eq]
  · have := hg.hvalidators
    rw [List.length_map] at this
    exact this

/-- Witness for C3 at the two-validator fixture. -/
theorem c3_base_clauses_witness :
    (constructFormula fbW).clauses =
      [fbW.validators.map (inQuorumA fbW.nodes.length),
       fbW.validators.map (inQuorumB fbW.nodes.length)] ++
      fbW.validators.map (fun ni =>
        [negL (inQuorumA fbW.nodes.length ni),
         negL (inQuorumB fbW.nodes.length ni)]) ++
      slicePassSpec fbW (inQuorumA fbW.nodes.length)
        (2 * fbW.nodes.length) (List.range fbW.nodes.length) ++
      slicePassSpec fbW (inQuorumB fbW.nodes.length)
        (2 * fbW.nodes.length + slicePassVars fbW (List.range fbW.nodes.length))
        (List.range fbW.nodes.length) ∧
    fbW.validators = List.range qsmW.length :=
  @c3_base_clauses qsmW fbW (by decide) (by decide)

/-- C4: Literal layout.  Exactly `2N` base variables are allocated before
any clause is emitted, vertex `i`'s quorum-A literal is variable `i` and
its quorum-B literal is variable `N + i`, the variable counter is still
`2N` when the slice passes start, and every literal of the final formula
is either a base literal of that layout or a Tseitin variable lying in
`[2N, num_vars)` — i.e. allocated after the `2N` base variables. -/
theorem c4_literal_layout {qsm : List (String × InternalScpQuorumSet)}
    {f : Fbas} (hwf : QsmWF qsm) (hok : fromQuorumSetMap qsm = .ok f) :
    baseVarsSt f = { numVars := 2 * f.nodes.length, clauses := [] } ∧
    (∀ i, inQuorumA f.nodes.length i = { var := i, sign := true } ∧
      inQuorumB f.nodes.length i = { var := i + f.nodes.length, sign := true }) ∧
    (afterDisjoint f).numVars = 2 * f.nodes.length ∧
    2 * f.nodes.length ≤ (constructFormula f).numVars ∧
    (∀ c ∈ (constructFormula f).clauses, ∀ l ∈ c,
      (∃ k, k < f.nodes.length ∧
        (l = inQuorumA f.nodes.length k ∨
         l = negL (inQuorumA f.nodes.length k) ∨
         l = inQuorumB f.nodes.length k ∨
         l = negL (inQuorumB f.nodes.length k))) ∨
      (2 * f.nodes.length ≤ l.var ∧
        l.var < (constructFormula f).numVars)) := by
  have hg := fromQuorumSetMap_good hwf hok
  have hnum : (constructFormula f).numVars =
      2 * f.nodes.length + slicePassVars f (List.range f.nodes.length) +
      slicePassVars f (List.range f.nodes.length) := by
    rw [constructFormula_eq]
  refine ⟨baseVarsSt_eq f, fun i => ⟨rfl, rfl⟩, ?_, ?_, ?_⟩
  · rw [afterDisjoint_eq]
  · rw [hnum]
    omega
  · intro c hc l hl
    have hcl : c ∈
        [f.validators.map (inQuorumA f.nodes.length),
         f.validators.map (inQuorumB f.nodes.length)] ++
        f.validators.map (fun ni =>
          [negL (inQuorumA f.nodes.length ni),
           negL (inQuorumB f.nodes.length ni)]) ++
        slicePassSpec f (inQuorumA f.nodes.length)
          (2 * f.nodes.length) (List.range f.nodes.length) ++
        slicePassSpec f (inQuorumB f.nodes.length)
          (2 * f.nodes.length + slicePassVars f (List.range f.nodes.length))
          (List.range f.nodes.length) := by
      rw [← (c3_base_clauses hwf hok).1]
      exact hc
    have hvb : ∀ v ∈ f.validators, v < f.nodes.length := by
      intro v hv
      rw [hg.hvalidators] at hv
      exact Nat.lt_of_lt_of_le (List.mem_range.mp hv) hg.hn
    rcases List.mem_append.mp hcl with hc1 | hcB
    rotate_left
    · rcases slicePass_lit_origin _ _ c hcB l hl with ⟨k, hk, ho⟩ | ⟨hb1, hb2⟩
      · have hkN : k < f.nodes.length := by
          rcases hk with hk1 | ⟨ni2, hni2, hk2⟩
          · exact List.mem_range.mp hk1
          · exact fbasGood_succ_bound hg ni2 k hk2
        rcases ho with rfl | rfl
        · exact Or.inl ⟨k, hkN, Or.inr (Or.inr (Or.inl rfl))⟩
        · exact Or.inl ⟨k, hkN, Or.inr (Or.inr (Or.inr rfl))⟩
      · refine Or.inr ⟨by omega, ?_⟩
        rw [hnum]
        omega
    rcases List.mem_append.mp hc1 with hc2 | hcA
    rotate_left
    · rcases slicePass_lit_origin _ _ c hcA l hl with ⟨k, hk, ho⟩ | ⟨hb1, hb2⟩
      · have hkN : k < f.nodes.length := by
          rcases hk with hk1 | ⟨ni2, hni2, hk2⟩
          · exact List.mem_range.mp hk1
          · exact fbasGood_succ_bound hg ni2 k hk2
        rcases ho with rfl | rfl
        · exact Or.inl ⟨k, hkN, Or.inl rfl⟩
        · exact Or.inl ⟨k, hkN, Or.inr (Or.inl rfl)⟩
      · refine Or.inr ⟨hb1, ?_⟩
        rw [hnum]
        omega
    rcases List.mem_append.mp hc2 with hc3 | hcD
    rotate_left
    · obtain ⟨v, hv, rfl⟩ := List.mem_map.mp hcD
      rcases List.mem_cons.mp hl with rfl | hl2
      · exact Or.inl ⟨v, hvb v hv, Or.inr (Or.inl rfl)⟩
      rcases List.mem_cons.mp hl2 with rfl | hl3
      · exact Or.inl ⟨v, hvb v hv, Or.inr (Or.inr (Or.inr rfl))⟩
      · simp at hl3
    rcases List.mem_cons.mp hc3 with rfl | hc4
    · obtain ⟨v, hv, rfl⟩ := List.mem_map.mp hl
      exact Or.inl ⟨v, hvb v hv, Or.inl rfl⟩
    rcases List.mem_cons.mp hc4 with rfl | hc5
    · obtain ⟨v, hv, rfl⟩ := List.mem_map.mp hl
      exact Or.inl ⟨v, hvb v hv, Or.inr (Or.inr (Or.inl rfl))⟩
    · simp at hc5

/-- Witness for C4 at the two-validator fixture. -/
theorem c4_literal_layout_witness :
    baseVarsSt fbW = { numVars := 2 * fbW.nodes.length, clauses := [] } ∧
    (∀ i, inQuorumA fbW.nodes.length i = { var := i, sign := true } ∧
      inQuorumB fbW.nodes.length i =
        { var := i + fbW.nodes.length, sign := true }) ∧
    (afterDisjoint fbW).numVars = 2 * fbW.nodes.length ∧
    2 * fbW.nodes.length ≤ (constructFormula fbW).numVars ∧
    (∀ c ∈ (constructFormula fbW).clauses, ∀ l ∈ c,
      (∃ k, k < fbW.nodes.length ∧
        (l = inQuorumA fbW.nodes.length k ∨
         l = negL (inQuorumA fbW.nodes.length k) ∨
         l = inQuorumB fbW.nodes.length k ∨
         l = negL (inQuorumB fbW.nodes.length k))) ∨
      (2 * fbW.nodes.length ≤ l.var ∧
        l.var < (constructFormula fbW).numVars)) :=
  @c4_literal_layout qsmW fbW (by decide) (by decide)

/-- C8: Unknown inner-validator references are silently dropped, not
errors: a map whose quorum sets mention strings that are not top-level
keys still builds whenever the depth bound is respected (failure depends
only on nesting depth), and every index appearing in the validator set of
any qset vertex belongs to a vertex of a registered (top-level) validator
— the unknown string contributes no index anywhere. -/
theorem c8_unknown_dropped {qsm : List (String × InternalScpQuorumSet)}
    (hwf : QsmWF qsm) :
    ((¬ ∃ p ∈ qsm, QUORUM_SET_MAX_DEPTH <
        qsetDepth (p : String × InternalScpQuorumSet).2) →
      ∃ f, fromQuorumSetMap qsm = .ok f) ∧
    (∀ f, fromQuorumSetMap qsm = .ok f →
      ∀ (i : Nat) (q : Qset), f.nodes[i]? = some (Vertex.QSet q) →
      ∀ j ∈ q.validators, ∃ s, f.nodes[j]? = some (Vertex.Validator s) ∧
        s ∈ qsm.map Prod.fst) := by
  constructor
  · intro hnot
    obtain ⟨hiff, _⟩ := fromQuorumSetMap_err qsm hwf
    cases hres : fromQuorumSetMap qsm with
    | ok f => exact ⟨f, rfl⟩
    | error er => exact absurd (hiff.mp ⟨er, hres⟩) hnot
  · intro f hok i q hq j hj
    have hg := fromQuorumSetMap_good hwf hok
    have hiN : i < f.nodes.length := by
      obtain ⟨h, _⟩ := List.getElem?_eq_some_iff.mp hq
      exact h
    have hinv : (qsm.map Prod.fst).length ≤ i := by
      by_contra hc
      rw [hg.hvnode i (by omega)] at hq
      injection hq with hq
      exact absurd hq (by simp)
    obtain ⟨q2, hq2a, _, hq3, _, _, _⟩ := hg.hqnode i hinv hiN
    have hq2eq : q2 = q := by
      rw [hq] at hq2a
      injection hq2a with h
      injection h with h
      exact h.symm
    subst hq2eq
    have hjlt : j < (qsm.map Prod.fst).length := hq3 j hj
    refine ⟨(qsm.map Prod.fst).getD j "", hg.hvnode j hjlt, ?_⟩
    rw [List.getD_eq_getElem?_getD, List.getElem?_eq_getElem hjlt]
    exact List.getElem_mem hjlt

/-- Witness for C8 at the fixture whose quorum set names the unknown
validator `zz`. -/
theorem c8_unknown_dropped_witness :
    ((¬ ∃ p ∈ qsmT, QUORUM_SET_MAX_DEPTH <
        qsetDepth (p : String × InternalScpQuorumSet).2) →
      ∃ f, fromQuorumSetMap qsmT = .ok f) ∧
    (∀ f, fromQuorumSetMap qsmT = .ok f →
      ∀ (i : Nat) (q : Qset), f.nodes[i]? = some (Vertex.QSet q) →
      ∀ j ∈ q.validators, ∃ s, f.nodes[j]? = some (Vertex.Validator s) ∧
        s ∈ qsmT.map Prod.fst) :=
  @c8_unknown_dropped qsmT (by decide)

/-- C10: A qset vertex whose threshold exceeds its number of successors
(possible after unknown validators are dropped) gets an empty combination
enumeration, so the encoder emits the unit clauses `(¬A(v))` and `(¬B(v))`
for it; consequently every satisfying model excludes it from both quorums,
and a validator whose single successor is such a vertex can never appear
in a lifted SAT witness. -/
theorem c10_overfull_qset {qsm : List (String × InternalScpQuorumSet)}
    {f : Fbas} (hwf : QsmWF qsm) (hok : fromQuorumSetMap qsm = .ok f)
    {i : Nat} {q : Qset}
    (hq : f.nodes[i]? = some (Vertex.QSet q))
    (hover : (f.succs.getD i []).length < q.threshold) :
    [negL (inQuorumA f.nodes.length i)] ∈ (constructFormula f).clauses ∧
    [negL (inQuorumB f.nodes.length i)] ∈ (constructFormula f).clauses ∧
    (∀ m, satFormula m (constructFormula f).clauses →
      m i = false ∧ m (i + f.nodes.length) = false ∧
      (∀ u ∈ f.validators, f.succs.getD u [] = [i] →
        u ∉ (liftModel f m).1 ∧ u ∉ (liftModel f m).2)) := by
  have hg := fromQuorumSetMap_good hwf hok
  have hiN : i < f.nodes.length := by
    obtain ⟨h, _⟩ := List.getElem?_eq_some_iff.mp hq
    exact h
  have hcombs : combinations (vertexThreshold f i) (neighborsOf f i) = [] := by
    refine List.length_eq_zero.mp ?_
    unfold combinations
    rw [List.length_sublistsLen, vertexThreshold_eq hq]
    exact Nat.choose_eq_zero_of_lt hover
  have hspec : ∀ (inq : Nat → Lit) (b : Nat),
      sliceClausesSpec f inq b i = [[negL (inq i)]] := by
    intro inq b
    unfold sliceClausesSpec
    rw [hcombs]
    rfl
  have hmemA : [negL (inQuorumA f.nodes.length i)] ∈
      (constructFormula f).clauses := by
    obtain ⟨b, hb⟩ := constructFormula_mem_sliceA f hiN
    refine hb _ ?_
    rw [hspec]
    exact List.mem_singleton.mpr rfl
  have hmemB : [negL (inQuorumB f.nodes.length i)] ∈
      (constructFormula f).clauses := by
    obtain ⟨b, hb⟩ := constructFormula_mem_sliceB f hiN
    refine hb _ ?_
    rw [hspec]
    exact List.mem_singleton.mpr rfl
  refine ⟨hmemA, hmemB, ?_⟩
  intro m hsat
  have hfA : m i = false := by
    obtain ⟨l, hl, hsl⟩ := hsat _ hmemA
    rw [List.mem_singleton.mp hl] at hsl
    exact hsl
  have hfB : m (i + f.nodes.length) = false := by
    obtain ⟨l, hl, hsl⟩ := hsat _ hmemB
    rw [List.mem_singleton.mp hl] at hsl
    exact hsl
  refine ⟨hfA, hfB, ?_⟩
  intro u hu hsucc
  have huN : u < f.nodes.length := by
    rw [hg.hvalidators] at hu
    exact Nat.lt_of_lt_of_le (List.mem_range.mp hu) hg.hn
  have hunv : u < (qsm.map Prod.fst).length := by
    rw [hg.hvalidators] at hu
    exact List.mem_range.mp hu
  have huth : vertexThreshold f u = 1 := vertexThreshold_eq (hg.hvnode u hunv)
  have hnbru : neighborsOf f u = [i] := hsucc
  constructor
  · intro hmem
    obtain ⟨_, htrue⟩ := List.mem_filter.mp hmem
    obtain ⟨c, hcmem, hcall⟩ := slice_extract hsat (fun _ => rfl)
      (constructFormula_mem_sliceA f huN) htrue
    rw [huth, hnbru] at hcmem
    have hceq := mem_combinations_singleton hcmem
    subst hceq
    have : m i = true := hcall i (List.mem_cons_self _ _)
    rw [hfA] at this
    exact absurd this (by simp)
  · intro hmem
    obtain ⟨_, htrue⟩ := List.mem_filter.mp hmem
    obtain ⟨c, hcmem, hcall⟩ := slice_extract hsat (fun _ => rfl)
      (constructFormula_mem_sliceB f huN) htrue
    rw [huth, hnbru] at hcmem
    have hceq := mem_combinations_singleton hcmem
    subst hceq
    have : m (i + f.nodes.length) = true := hcall i (List.mem_cons_self _ _)
    rw [hfB] at this
    exact absurd this (by simp)

/-- Witness for C10 at the threshold-overflow fixture: vertex 1 of `fbT`
has threshold 2 and a single successor. -/
theorem c10_overfull_qset_witness :
    [negL (inQuorumA fbT.nodes.length 1)] ∈ (constructFormula fbT).clauses ∧
    [negL (inQuorumB fbT.nodes.length 1)] ∈ (constructFormula fbT).clauses ∧
    (∀ m, satFormula m (constructFormula fbT).clauses →
      m 1 = false ∧ m (1 + fbT.nodes.length) = false ∧
      (∀ u ∈ fbT.validators, fbT.succs.getD u [] = [1] →
        u ∉ (liftModel fbT m).1 ∧ u ∉ (liftModel fbT m).2)) :=
  @c10_overfull_qset qsmT fbT (by decide) (by decide) 1
    { threshold := 2, validators := [0], inner_qsets := [] }
    (by decide) (by decide)

end SQA
